import Mathlib

/-!
Shallow embedding of the document element model of `src/pdf/pdf.py` and
`src/canvas/utility.py` (repository `p2m_paddle`), together with theorems
settling the frozen claims about chain reconstruction, the safe-area
evaluator, the editing operations and the text views.

Coordinates are modelled with `ℚ` (the source compares floats with `>` only,
so the order structure is all that matters).  Python dictionaries
(`self.chains`, `self.to_chain`) are modelled as association lists where a
new binding is prepended, so `List.lookup` sees the latest binding first,
matching dictionary assignment.  A Python function that can raise for the
inputs a claim talks about is modelled with an `Option` result, `none`
standing for the raised exception.
-/

namespace P2M

/-- The element type of the missing collaborator file `src/pdf/pdf_element.py`.
Modelled from the spec: a fragment with a bottom-left-origin bounding box,
free text, the `visible`/`body`/`safe` flags, the three-state continuation
marker `contd` (`none` / `some 1` = Concat / `some 2` = Join, the ad hoc
integer codes of the source), an optional `translated` overlay, the transient
`marked` flag used by merge staging, the capability predicates
`can_be_split` / `can_be_merged` recorded as fields, and the precomputed
`children` used by split. -/
structure PdfElement where
  bbox : ℚ × ℚ × ℚ × ℚ
  text : String
  visible : Bool
  body : Bool
  safe : Bool
  contd : Option Nat
  translated : Option String
  marked : Bool
  can_be_split : Bool
  can_be_merged : Bool
  children : List PdfElement

/-- `PdfRect` of the missing `src/pdf/pdf_element.py`.  Modelled from the
spec: a rectangle `(x1, y1, x2, y2)`, fractional when used as the margin. -/
structure PdfRect where
  x1 : ℚ
  y1 : ℚ
  x2 : ℚ
  y2 : ℚ

/-- `PdfPage` (`src/pdf/pdf.py`, class `PdfPage`): page number, dimensions,
and the ordered `(key, element)` list. -/
structure PdfPage where
  page_number : Nat
  width : ℚ
  height : ℚ
  elements : List (Nat × PdfElement)

/-- `Pdf.Context` (`src/pdf/pdf.py`): the margin, the ordered pages and the
key counter `index`. -/
structure Context where
  margin : PdfRect
  pages : List PdfPage
  index : Nat

/-- `check_overlap` (`src/canvas/utility.py`): axis-aligned rectangle overlap
test on `(x1, y1, x2, y2)` tuples. -/
def check_overlap (rect1 rect2 : ℚ × ℚ × ℚ × ℚ) : Bool :=
  let (x1_rect1, y1_rect1, x2_rect1, y2_rect1) := rect1
  let (x1_rect2, y1_rect2, x2_rect2, y2_rect2) := rect2
  if x1_rect1 > x2_rect2 ∨ x1_rect2 > x2_rect1 then false
  else if y1_rect1 > y2_rect2 ∨ y1_rect2 > y2_rect1 then false
  else true

/-- The absolute safe rectangle computed per page inside
`Pdf.recalculate_safe_area`, in the tuple order of the source:
`(w·m.x1, h·(1-m.y2), w·m.x2, h·(1-m.y1))`. -/
def safe_area_rect (margin : PdfRect) (page : PdfPage) : ℚ × ℚ × ℚ × ℚ :=
  (page.width * margin.x1, page.height * (1 - margin.y2),
   page.width * margin.x2, page.height * (1 - margin.y1))

/-- `Pdf.recalculate_safe_area` (`src/pdf/pdf.py` lines 177-186): for every
page, set each element's `safe` flag to the overlap test between its bbox and
the page's absolute safe rectangle. -/
def recalculate_safe_area (ctx : Context) : Context :=
  { ctx with
    pages := ctx.pages.map fun page =>
      { page with
        elements := page.elements.map fun ke =>
          (ke.1, { ke.2 with safe := check_overlap ke.2.bbox (safe_area_rect ctx.margin page) }) } }

/-- The eligibility gate of the chain reconstructor
(`element.visible and element.safe and element.body`). -/
def chainEligible (e : PdfElement) : Bool :=
  e.visible && e.safe && e.body

/-- The loop state of `Pdf.build_chain_list`: the accumulating `chains` and
`to_chain` association lists, the open chain (`last_head_key`, `last_head`,
`last_text` of the source, bundled since they are always set together) and
`prev_body`, the most recently processed eligible element. -/
structure ChainState where
  chains : List (Nat × (PdfElement × String))
  to_chain : List (Nat × Nat)
  last : Option (Nat × PdfElement × String)
  prev_body : Option PdfElement

/-- Initial state of the `build_chain_list` scan. -/
def chainInit : ChainState :=
  { chains := [], to_chain := [], last := none, prev_body := none }

/-- One iteration of the `Pdf.build_chain_list` loop body
(`src/pdf/pdf.py` lines 199-232) on a single `(key, element)` entry.
The `prev_body = none` case of the separator is unreachable while a chain is
open (the source would dereference `None` there). -/
def chainStep (s : ChainState) (ke : Nat × PdfElement) : ChainState :=
  let (key, element) := ke
  if chainEligible element then
    match s.last with
    | none =>
      if element.contd.isSome then
        { s with last := some (key, element, element.text),
                 to_chain := (key, key) :: s.to_chain,
                 prev_body := some element }
      else
        { s with prev_body := some element }
    | some (last_head_key, last_head, last_text) =>
      let sep : String :=
        match s.prev_body with
        | some pb => if pb.contd = some 1 then " " else "\n"
        | none => "\n"
      let last_text := last_text ++ sep ++ element.text
      if element.contd.isNone then
        { s with chains := (last_head_key, (last_head, last_text)) :: s.chains,
                 to_chain := (key, last_head_key) :: s.to_chain,
                 last := none,
                 prev_body := some element }
      else
        { s with last := some (last_head_key, last_head, last_text),
                 to_chain := (key, last_head_key) :: s.to_chain,
                 prev_body := some element }
  else s

/-- The full scan of `Pdf.build_chain_list` before the final commit:
all pages in document order, all elements within a page in list order. -/
def chainScan (ctx : Context) : ChainState :=
  ctx.pages.foldl (fun s page => page.elements.foldl chainStep s) chainInit

/-- `Pdf.build_chain_list` (`src/pdf/pdf.py` lines 188-235): the derived
`(chains, to_chain)` indexes; a chain still open at end of scan is
committed. -/
def build_chain_list (ctx : Context) : List (Nat × (PdfElement × String)) × List (Nat × Nat) :=
  let s := chainScan ctx
  match s.last with
  | some (last_head_key, last_head, last_text) =>
    ((last_head_key, (last_head, last_text)) :: s.chains, s.to_chain)
  | none => (s.chains, s.to_chain)

/-- All `(key, element)` entries of a context in document scan order. -/
def allElements (ctx : Context) : List (Nat × PdfElement) :=
  ctx.pages.flatMap (fun page => page.elements)

/-- All keys of a context in document scan order. -/
def keysOf (ctx : Context) : List Nat :=
  (allElements ctx).map (fun ke => ke.1)

/-- `Pdf.get_element` (`src/pdf/pdf.py` lines 431-436): first element with
the given key, scanning all pages. -/
def get_element (ctx : Context) (key : Nat) : Option PdfElement :=
  ((allElements ctx).find? (fun ke => ke.1 = key)).map (fun ke => ke.2)

/-- Replace the first entry carrying `key` in an element list, or `none` when
the key is absent. -/
def updateFirstElem (key : Nat) (f : PdfElement → PdfElement) :
    List (Nat × PdfElement) → Option (List (Nat × PdfElement))
  | [] => none
  | ke :: rest =>
    if ke.1 = key then some ((ke.1, f ke.2) :: rest)
    else (updateFirstElem key f rest).map (fun l => ke :: l)

/-- Mutate the first element carrying `key` across the pages (the object
`get_element` returns), or `none` when the key is absent anywhere. -/
def updateFirstPages (key : Nat) (f : PdfElement → PdfElement) :
    List PdfPage → Option (List PdfPage)
  | [] => none
  | page :: rest =>
    match updateFirstElem key f page.elements with
    | some elems => some ({ page with elements := elems } :: rest)
    | none => (updateFirstPages key f rest).map (fun ps => page :: ps)

/-- `Pdf.toggle_visibility` (`src/pdf/pdf.py` lines 318-323).  The source
runs `e.visible = not e.visible if e is not None else None`: the conditional
guards only the assigned value, the assignment target `e.visible` is
evaluated regardless, so a missing key raises `AttributeError` — modelled as
`none`. -/
def toggle_visibility (ctx : Context) (key : Nat) : Option Context :=
  (updateFirstPages key (fun e => { e with visible := !e.visible }) ctx.pages).map
    (fun ps => { ctx with pages := ps })

/-- `Pdf.toggle_body` (`src/pdf/pdf.py` lines 325-330), with the same
misplaced `None` guard as `toggle_visibility`: a missing key raises
`AttributeError`, modelled as `none`. -/
def toggle_body (ctx : Context) (key : Nat) : Option Context :=
  (updateFirstPages key (fun e => { e with body := !e.body }) ctx.pages).map
    (fun ps => { ctx with pages := ps })

/-- `PdfElement.toggle_continue` of the missing `src/pdf/pdf_element.py`.
Modelled from the spec: cycles the continuation marker
`None → Concat → Join → None`. -/
def elementToggleContinue (e : PdfElement) : PdfElement :=
  { e with contd := match e.contd with
                    | none => some 1
                    | some 1 => some 2
                    | some _ => none }

/-- `Pdf.toggle_continue` (`src/pdf/pdf.py` lines 332-337): here the guard
`e.toggle_continue() if e is not None else None` is a plain expression, so a
missing key really is a silent no-op. -/
def toggle_continue (ctx : Context) (key : Nat) : Context :=
  match updateFirstPages key elementToggleContinue ctx.pages with
  | some ps => { ctx with pages := ps }
  | none => ctx

/-- Split eligibility (`element.safe and element.visible and
element.can_be_split()`). -/
def splitEligible (e : PdfElement) : Bool :=
  e.safe && e.visible && e.can_be_split

/-- The children of a split element keyed with consecutive fresh keys
starting at `start` (`src/pdf/pdf.py` lines 347-349). -/
def splitChildrenKeyed (children : List PdfElement) (start : Nat) : List (Nat × PdfElement) :=
  children.enum.map (fun je => (start + je.1, je.2))

/-- Within one page, replace the first eligible entry carrying the target key
by its keyed children; returns the new list and the advanced key counter, or
`none` when no eligible entry with that key exists in the page. -/
def splitInElems (target : Nat) (idx : Nat) :
    List (Nat × PdfElement) → Option (List (Nat × PdfElement) × Nat)
  | [] => none
  | ke :: rest =>
    if ke.1 = target ∧ splitEligible ke.2 then
      some (splitChildrenKeyed ke.2.children idx ++ rest, idx + ke.2.children.length)
    else (splitInElems target idx rest).map (fun p => (ke :: p.1, p.2))

/-- The page scan of `Pdf.split_element`: the inner `break` only leaves the
current page, so every page containing an eligible entry with the target key
is processed, threading the key counter. -/
def splitInPages (target : Nat) : List PdfPage → Nat → (List PdfPage × Nat)
  | [], idx => ([], idx)
  | page :: rest, idx =>
    match splitInElems target idx page.elements with
    | some (elems, idx2) =>
      let r := splitInPages target rest idx2
      ({ page with elements := elems } :: r.1, r.2)
    | none =>
      let r := splitInPages target rest idx
      (page :: r.1, r.2)

/-- `Pdf.split_element` (`src/pdf/pdf.py` lines 339-353): replace the
eligible element by its children, each assigned a fresh key from the
counter; no-op when the key is absent or the element not splittable. -/
def split_element (ctx : Context) (key_to_split : Nat) : Context :=
  let r := splitInPages key_to_split ctx.pages ctx.index
  { ctx with pages := r.1, index := r.2 }

/-- Merge eligibility (`element.safe and element.visible and
element.can_be_merged()`). -/
def mergeEligible (e : PdfElement) : Bool :=
  e.safe && e.visible && e.can_be_merged

/-- An entry qualifies for the current merge call: its key occurs in
`key_list` and it is safe, visible and mergeable. -/
def mergeQual (key_list : List Nat) (ke : Nat × PdfElement) : Bool :=
  key_list.contains ke.1 && mergeEligible ke.2

/-- The `to_merge` list collected by `Pdf.merge` (lines 363-370): for each
key of `key_list` in argument order, every page entry carrying that key and
eligible, in page order. -/
def mergeCandidates (page : PdfPage) (key_list : List Nat) : List PdfElement :=
  key_list.flatMap
    (fun k => (page.elements.filter (fun ke => ke.1 == k && mergeEligible ke.2)).map (fun ke => ke.2))

/-- The running minimum update of `insert_position`
(`if insert_position is None or i < insert_position`). -/
def minAcc (acc : Option Nat) (i : Nat) : Option Nat :=
  match acc with
  | none => some i
  | some m => if i < m then some i else some m

/-- Index scan behind `insert_position`: visits the page entries with their
indices and feeds every qualifying index to the running minimum.  The source
nests this inside the loop over `key_list` (so a duplicated key feeds the
same index twice), which leaves the minimum unchanged; qualifying here is
`key ∈ key_list ∧ eligible`, the disjunction of the per-`k` matches. -/
def mergeInsertPosAux (key_list : List Nat) :
    List (Nat × PdfElement) → Nat → Option Nat → Option Nat
  | [], _, acc => acc
  | ke :: rest, i, acc =>
    let acc := if mergeQual key_list ke then minAcc acc i else acc
    mergeInsertPosAux key_list rest (i + 1) acc

/-- The `insert_position` computed by `Pdf.merge` (lines 368-369). -/
def mergeInsertPos (page : PdfPage) (key_list : List Nat) : Option Nat :=
  mergeInsertPosAux key_list page.elements 0 none

/-- `Pdf.merge` (`src/pdf/pdf.py` lines 355-395).  The collaborator factory
`PdfElement.from_merge` (missing `src/pdf/pdf_element.py`) is passed as the
parameter `fm`.  An empty key list returns before touching the page; an
out-of-range page index raises `IndexError` (modelled as `none`); fewer than
two collected entries is a no-op.  Otherwise the qualifying entries are
marked, the merged element is inserted at the minimum qualifying index, and
the marked entries are filtered out (the final unmark loop only touches the
removed objects, so it leaves the page unchanged). -/
def merge (fm : Nat → List PdfElement → Nat → PdfElement) (ctx : Context)
    (page_number : Nat) (key_list : List Nat) (concat_or_join : Nat) : Option Context :=
  if key_list.length = 0 then some ctx
  else
    match ctx.pages[page_number]? with
    | none => none
    | some page =>
      let to_merge := mergeCandidates page key_list
      if to_merge.length < 2 then some ctx
      else
        let insert_position := (mergeInsertPos page key_list).getD 0
        let marked := page.elements.map
          (fun ke => if mergeQual key_list ke then
                       (ke.1, { ke.2 with marked := true })
                     else ke)
        let withNew := marked.insertIdx insert_position
          (ctx.index, fm page.page_number to_merge concat_or_join)
        let new_elements := withNew.filter (fun ke => !ke.2.marked)
        some { ctx with
               pages := ctx.pages.set page_number { page with elements := new_elements },
               index := ctx.index + 1 }

/-- The index scan of `Pdf.move_element` (lines 405-409), threading the
enumeration index: the last eligible occurrence of each key wins, and the
`elif` branch is only tried when the pivot branch did not match. -/
def moveScanAux (pk mk : Nat) :
    List (Nat × PdfElement) → Nat → Option Nat × Option Nat → Option Nat × Option Nat
  | [], _, acc => acc
  | ke :: rest, i, acc =>
    let acc :=
      if ke.1 == pk && ke.2.safe && ke.2.visible then (some i, acc.2)
      else if ke.1 == mk && ke.2.safe && ke.2.visible then (acc.1, some i)
      else acc
    moveScanAux pk mk rest (i + 1) acc

/-- The `(pivot_index, move_index)` pair found by `Pdf.move_element`. -/
def moveScan (l : List (Nat × PdfElement)) (pk mk : Nat) : Option Nat × Option Nat :=
  moveScanAux pk mk l 0 (none, none)

/-- `pop i` followed by `insert j` on an element list. -/
def popInsert (l : List (Nat × PdfElement)) (i j : Nat) : List (Nat × PdfElement) :=
  match l[i]? with
  | some x => (l.eraseIdx i).insertIdx j x
  | none => l

/-- `Pdf.move_element` (`src/pdf/pdf.py` lines 397-429).  The result pairs
the new context with the returned value: `none` for the early-return guard
(`None` in Python), `some false` for the pivot/moved-not-found return, and
`some true` for success. -/
def move_element (ctx : Context) (pivot_key key_to_move : Option Nat)
    (page_index : Nat) (disposition : String) : Context × Option Bool :=
  match pivot_key, key_to_move with
  | some pk, some mk =>
    if pk = mk ∨ page_index ≥ ctx.pages.length then (ctx, none)
    else
      match ctx.pages[page_index]? with
      | none => (ctx, none)
      | some page =>
        match moveScan page.elements pk mk with
        | (some pivot_index, some move_index) =>
          let pivot_index := if move_index < pivot_index then pivot_index - 1 else pivot_index
          let offset := if disposition = "after" then 1 else 0
          let newPage := { page with
            elements := popInsert page.elements move_index (pivot_index + offset) }
          ({ ctx with pages := ctx.pages.set page_index newPage }, some true)
        | _ => (ctx, some false)
  | _, _ => (ctx, none)

/-- The omission marker emitted by `Pdf.get_page_text`, newline included. -/
def omissionMarker : String := "(因延续而被省略)\n"

/-- Combined text of the chain headed at `k` (`self.chains[key][1]`; the
lookup cannot fail for a head recorded in `to_chain`). -/
def chainCombined (ch : List (Nat × (PdfElement × String))) (k : Nat) : String :=
  match ch.lookup k with
  | some et => et.2
  | none => ""

/-- One iteration of the `Pdf.get_page_text` loop (lines 258-286) on the
state `(text, in_continue)`. -/
def pageStep (tc : List (Nat × Nat)) (ch : List (Nat × (PdfElement × String)))
    (s : String × Bool) (ke : Nat × PdfElement) : String × Bool :=
  let (key, element) := ke
  if !element.safe || !element.visible then s
  else
    let (text, in_continue) := s
    let (text, in_continue) :=
      if in_continue then
        if (tc.lookup key).isNone && element.body then (text, false)
        else if element.body then (text ++ omissionMarker, in_continue)
        else (text, in_continue)
      else (text, in_continue)
    if !in_continue then
      match tc.lookup key with
      | some h =>
        if h = key then
          match element.translated with
          | some tr => (text ++ tr ++ "\n", in_continue)
          | none => (text ++ chainCombined ch key ++ "\n", in_continue)
        else (text, in_continue)
      | none => (text ++ (element.translated.getD element.text) ++ "\n", in_continue)
    else
      if !element.body then (text ++ element.text ++ "\n", in_continue)
      else (text, in_continue)

/-- `Pdf.get_page_text` (`src/pdf/pdf.py` lines 253-287) over the freshly
rebuilt chain indexes; an out-of-range page yields the empty string (the
iterator yields nothing). -/
def get_page_text (ctx : Context) (page : Nat) : String :=
  let b := build_chain_list ctx
  match ctx.pages[page]? with
  | some p => (p.elements.foldl (pageStep b.2 b.1) ("", true)).1
  | none => ""

/-- The keys of one page. -/
def pageKeys (p : PdfPage) : List Nat :=
  p.elements.map (fun ke => ke.1)

/-- The keys of a page list in document order. -/
def pagesKeys (pages : List PdfPage) : List Nat :=
  pages.flatMap pageKeys

/-- The editing operations the key-uniqueness claim quantifies over. -/
inductive EditOp : Type
  | split (key : Nat) : EditOp
  | merge (page : Nat) (keys : List Nat) (mode : Nat) : EditOp

/-- State evolution of one editing operation: an exception (merge on an
out-of-range page raises before mutating) leaves the context unchanged. -/
def applyOp (fm : Nat → List PdfElement → Nat → PdfElement) (ctx : Context) :
    EditOp → Context
  | .split k => split_element ctx k
  | .merge pn ks mode => (merge fm ctx pn ks mode).getD ctx

/-! ### The amended page-text rendering, stated from the claim's words -/

/-- Concatenation of per-element emissions. -/
def emitAll (f : (Nat × PdfElement) → String) (l : List (Nat × PdfElement)) : String :=
  l.foldr (fun ke acc => f ke ++ acc) ""

/-- An eligible element keeps the page in leading-omission mode when it is
non-body or already has a chain entry (head or continuation alike). -/
def keepsOmission (tc : List (Nat × Nat)) (ke : Nat × PdfElement) : Bool :=
  !(ke.2.body && (tc.lookup ke.1).isNone)

/-- Emission of an eligible element in leading-omission mode: body elements
contribute the omission marker, non-body elements their raw text. -/
def leadingEmit (ke : Nat × PdfElement) : String :=
  if ke.2.body then omissionMarker else ke.2.text ++ "\n"

/-- Emission of an eligible element in normal mode: a chain head emits its
translated text if present else the chain's combined text, a continuation
emits nothing, an element without chain entry emits its translated or own
text. -/
def normalEmit (tc : List (Nat × Nat)) (ch : List (Nat × (PdfElement × String)))
    (ke : Nat × PdfElement) : String :=
  match tc.lookup ke.1 with
  | some h => if h = ke.1 then (ke.2.translated.getD (chainCombined ch ke.1)) ++ "\n" else ""
  | none => (ke.2.translated.getD ke.2.text) ++ "\n"

/-- Modelled from the amended claim's words: drop ineligible elements, stay
in leading-omission mode while elements are non-body or chain members,
switch to normal mode at the first body element without chain entry, and
concatenate the per-mode emissions. -/
def pageTextAmended (ctx : Context) (page : Nat) : String :=
  let b := build_chain_list ctx
  match ctx.pages[page]? with
  | none => ""
  | some p =>
    let es := p.elements.filter (fun ke => ke.2.safe && ke.2.visible)
    emitAll leadingEmit (es.takeWhile (keepsOmission b.2)) ++
      emitAll (normalEmit b.2 b.1) (es.dropWhile (keepsOmission b.2))

/-- Replace the element list of page `pi` (a readable shorthand used in the
statements about `move_element`). -/
def setPageElems (ctx : Context) (pi : Nat) (page : PdfPage)
    (l : List (Nat × PdfElement)) : Context :=
  let newPage := { page with elements := l }
  { ctx with pages := ctx.pages.set pi newPage }

/-! ### Concrete fixtures used by scenario conjuncts, witnesses and
counterexamples -/

/-- A safe, visible body text element with no translation, not splittable,
mergeable, empty children. -/
def baseElem : PdfElement :=
  { bbox := (0, 0, 1, 1), text := "", visible := true, body := true, safe := true,
    contd := none, translated := none, marked := false,
    can_be_split := false, can_be_merged := true, children := [] }

/-- A base element with the given text and continuation marker. -/
def txtElem (t : String) (c : Option Nat) : PdfElement :=
  { baseElem with text := t, contd := c }

/-- A one-page document with the default margin of the source and the given
element list; the key counter starts at 100, above every fixture key. -/
def onePageCtx (l : List (Nat × PdfElement)) : Context :=
  { margin := ⟨15/100, 8/100, 85/100, 92/100⟩,
    pages := [{ page_number := 1, width := 100, height := 100, elements := l }],
    index := 100 }

/-- Two adjacent eligible body elements, the first marked `Concat`, the
second unmarked: the scenario of the chain-reconstruction claims. -/
def ctxConcat : Context := onePageCtx [(0, txtElem "A" (some 1)), (1, txtElem "B" none)]

/-- Four standalone eligible elements `A B C D`, used by the merge and move
claims. -/
def ctxFour : Context := onePageCtx
  [(0, txtElem "A" none), (1, txtElem "B" none), (2, txtElem "C" none), (3, txtElem "D" none)]

/-- A concrete stand-in for the collaborator merge factory: concatenates the
texts of the merged elements. -/
def fmJoin : Nat → List PdfElement → Nat → PdfElement :=
  fun _ es _ => txtElem (String.join (es.map (fun e => e.text))) none

/-- A single eligible element opening a chain that never closes. -/
def ctxOpen : Context := onePageCtx [(0, txtElem "A" (some 1))]

/-- A scan state with an open chain headed at key 5, used to instantiate the
step-level claims. -/
def chainWitnessState : ChainState :=
  { chains := [], to_chain := [(5, 5)],
    last := some (5, txtElem "H" (some 1), "H"),
    prev_body := some (txtElem "H" (some 1)) }

/-- A one-page document whose only element is invisible. -/
def ctxInvis : Context := onePageCtx [(3, { baseElem with visible := false })]

/-! ### Helper lemmas -/

/-- An ineligible element leaves the chain scan state untouched. -/
theorem chainStep_ineligible (s : ChainState) (ke : Nat × PdfElement)
    (h : chainEligible ke.2 = false) : chainStep s ke = s := by
  cases ke with
  | mk k e => simp [chainStep, h]

/-- The page-by-page scan equals the scan of the flattened element list. -/
theorem chainScan_eq_foldl (ctx : Context) :
    chainScan ctx = (allElements ctx).foldl chainStep chainInit := by
  show ctx.pages.foldl _ chainInit = _
  rw [allElements]
  generalize chainInit = s
  induction ctx.pages generalizing s with
  | nil => rfl
  | cons p ps ih => simp only [List.foldl_cons, List.flatMap_cons, List.foldl_append, ih]

/-- Committing the open chain at end of scan does not touch `to_chain`. -/
theorem build_chain_list_snd (ctx : Context) :
    (build_chain_list ctx).2 = (chainScan ctx).to_chain := by
  unfold build_chain_list
  rcases h : (chainScan ctx).last with _ | ⟨⟨hk, hh, ht⟩⟩ <;> simp [h]

/-- Association-list lookup skips a head with a different key. -/
theorem lookup_cons_ne {β : Type} (k k1 : Nat) (v : β) (l : List (Nat × β))
    (h : k ≠ k1) : List.lookup k ((k1, v) :: l) = List.lookup k l := by
  have hb : (k == k1) = false := beq_eq_false_iff_ne.mpr h
  simp [List.lookup, hb]

/-- The `to_chain` component produced by one scan step. -/
theorem chainStep_to_chain (s : ChainState) (k : Nat) (e : PdfElement) :
    (chainStep s (k, e)).to_chain =
      if chainEligible e then
        match s.last with
        | none => if e.contd.isSome then (k, k) :: s.to_chain else s.to_chain
        | some (hk, _, _) => (k, hk) :: s.to_chain
      else s.to_chain := by
  by_cases he : chainEligible e
  · rcases hl : s.last with _ | ⟨⟨hk2, hh2, ht2⟩⟩
    · by_cases hc : e.contd.isSome <;> simp [chainStep, he, hl, hc]
    · by_cases hc : e.contd.isNone <;> simp [chainStep, he, hl, hc]
  · simp [chainStep, he]

/-- A key never carried by an eligible element stays absent from `to_chain`
along the scan. -/
theorem lookup_to_chain_foldl (l : List (Nat × PdfElement)) (s : ChainState) (k : Nat)
    (hl : ∀ e, (k, e) ∈ l → chainEligible e = false)
    (h0 : s.to_chain.lookup k = none) :
    ((l.foldl chainStep s).to_chain).lookup k = none := by
  induction l generalizing s with
  | nil => exact h0
  | cons ke rest ih =>
    refine ih _ (fun e he => hl e (List.mem_cons_of_mem _ he)) ?_
    by_cases hk : ke.1 = k
    · have he : chainEligible ke.2 = false := by
        refine hl ke.2 ?_
        have : ke = (k, ke.2) := by cases ke; simp_all
        rw [← this]; exact List.mem_cons_self _ _
      rw [chainStep_ineligible _ _ he]; exact h0
    · cases ke with
      | mk k1 e =>
        simp only at hk
        have hne : k ≠ k1 := fun hh => hk hh.symm
        rw [show ((k1, e) : Nat × PdfElement) = (k1, e) from rfl, chainStep_to_chain]
        by_cases he : chainEligible e
        · simp only [he, if_true]
          rcases hl2 : s.last with _ | ⟨⟨hk2, hh2, ht2⟩⟩
          · by_cases hc : e.contd.isSome
            · simp only [hc, if_true]
              rw [lookup_cons_ne _ _ _ _ hne]; exact h0
            · simp only [hc, if_false]; exact h0
          · rw [lookup_cons_ne _ _ _ _ hne]; exact h0
        · simp only [he, if_false]; exact h0

/-! ### Claim theorems -/

/-- C1: while a chain is active, an eligible element is appended to the
accumulated text using the previous eligible element's marker as the join
rule (`Concat` = `some 1` joins with a space, any other non-`None` marker
with a line break), its key is recorded in `to_chain` mapped to the head
key, and the chain commits into `chains` exactly when the element's own
marker is `None`; for the two-element Concat/None scenario the result is one
chain headed by the first element with text `"A" ++ " " ++ "B"`. -/
theorem c1_continuation_join_rule :
    (∀ (s : ChainState) (hk : Nat) (h : PdfElement) (t : String) (pb : PdfElement)
       (k : Nat) (e : PdfElement),
       s.last = some (hk, h, t) → s.prev_body = some pb → pb.contd ≠ none →
       chainEligible e = true →
       ((chainStep s (k, e)).to_chain = (k, hk) :: s.to_chain ∧
        (e.contd = none →
          (chainStep s (k, e)).last = none ∧
          (chainStep s (k, e)).chains =
            (hk, (h, t ++ (if pb.contd = some 1 then " " else "\n") ++ e.text)) :: s.chains) ∧
        (e.contd ≠ none →
          (chainStep s (k, e)).last =
            some (hk, h, t ++ (if pb.contd = some 1 then " " else "\n") ++ e.text) ∧
          (chainStep s (k, e)).chains = s.chains))) ∧
    ((build_chain_list ctxConcat).1 = [(0, (txtElem "A" (some 1), "A B"))] ∧
     (build_chain_list ctxConcat).2 = [(1, 0), (0, 0)]) := by
  refine ⟨?_, rfl, rfl⟩
  intro s hk h t pb k e hlast hpb _ helig
  simp only [chainStep, helig, if_true, hlast, hpb]
  rcases hc : e.contd with _ | n
  · simp [hc]
  · simp [hc]

/-- C2: elements that are not `(visible ∧ safe ∧ body)` are skipped entirely
by the chain reconstructor — the scan state (including any open chain) is
unchanged — and a key carried only by ineligible elements never appears in
`to_chain`. -/
theorem c2_ineligible_skipped :
    (∀ (s : ChainState) (k : Nat) (e : PdfElement),
       ¬(e.visible = true ∧ e.safe = true ∧ e.body = true) →
       chainStep s (k, e) = s) ∧
    (∀ (ctx : Context) (k : Nat),
       (∀ e, (k, e) ∈ allElements ctx →
         ¬(e.visible = true ∧ e.safe = true ∧ e.body = true)) →
       ((build_chain_list ctx).2).lookup k = none) := by
  have heq : ∀ e : PdfElement,
      ¬(e.visible = true ∧ e.safe = true ∧ e.body = true) → chainEligible e = false := by
    intro e he
    by_contra hne
    apply he
    have h3 : chainEligible e = true := by
      revert hne; cases chainEligible e <;> simp
    simp only [chainEligible, Bool.and_eq_true] at h3
    exact ⟨h3.1.1, h3.1.2, h3.2⟩
  refine ⟨fun s k e he => chainStep_ineligible s (k, e) (heq e he), ?_⟩
  intro ctx k hk
  rw [build_chain_list_snd, chainScan_eq_foldl]
  exact lookup_to_chain_foldl _ _ _ (fun e he => heq e (hk e he)) rfl

/-- C3: the source of `toggle_visibility` and `toggle_body` evaluates the
assignment target `e.visible` even when the lookup failed, so a missing key
raises `AttributeError` instead of the no-op the spec promises, and `merge`
indexes `self.context.pages[page_number]` unguarded, so an out-of-range page
raises `IndexError` instead of degrading; all three are evaluated here at
concrete invalid references (`none` is the raised exception). -/
theorem c3_invalid_reference_raises :
    toggle_visibility ctxConcat 99 = none ∧
    toggle_body ctxConcat 99 = none ∧
    merge fmJoin ctxConcat 5 [0, 1] 1 = none :=
  ⟨rfl, rfl, rfl⟩

/-- C5: `safe` is exactly the overlap test between the element's bbox and
the page's absolute safe rectangle `(w·m.x1, h·(1-m.y2), w·m.x2,
h·(1-m.y1))`, and the overlap test holds iff neither rectangle is strictly
to the left/right or below/above the other (touching edges overlap). -/
theorem c5_safe_area_overlap :
    (∀ r1 r2 : ℚ × ℚ × ℚ × ℚ,
       check_overlap r1 r2 = true ↔
         (r1.1 ≤ r2.2.2.1 ∧ r2.1 ≤ r1.2.2.1 ∧ r1.2.1 ≤ r2.2.2.2 ∧ r2.2.1 ≤ r1.2.2.2)) ∧
    (∀ (ctx : Context) (i j k : Nat) (e : PdfElement) (p : PdfPage),
       ctx.pages[i]? = some p → p.elements[j]? = some (k, e) →
       (((recalculate_safe_area ctx).pages[i]?).bind (fun p2 => p2.elements[j]?)) =
         some (k, { e with safe := check_overlap e.bbox (safe_area_rect ctx.margin p) })) := by
  constructor
  · rintro ⟨a1, b1, c1, d1⟩ ⟨a2, b2, c2, d2⟩
    simp only [check_overlap]
    by_cases h1 : a1 > c2 ∨ a2 > c1
    · simp only [h1, if_true]
      constructor
      · intro h; exact absurd h (by simp)
      · rintro ⟨hx1, hx2, _, _⟩
        rcases h1 with h | h
        · exact absurd hx1 (not_le.mpr h)
        · exact absurd hx2 (not_le.mpr h)
    · by_cases h2 : b1 > d2 ∨ b2 > d1
      · simp only [h1, h2, if_true, if_false]
        constructor
        · intro h; exact absurd h (by simp)
        · rintro ⟨_, _, hy1, hy2⟩
          rcases h2 with h | h
          · exact absurd hy1 (not_le.mpr h)
          · exact absurd hy2 (not_le.mpr h)
      · simp only [h1, h2, if_false]
        push_neg at h1 h2
        simp [h1.1, h1.2, h2.1, h2.2]
  · intro ctx i j k e p hi hj
    have h1 : (recalculate_safe_area ctx).pages[i]? =
        some { p with elements := p.elements.map (fun ke =>
          (ke.1, { ke.2 with safe := check_overlap ke.2.bbox (safe_area_rect ctx.margin p) })) } := by
      show (ctx.pages.map _)[i]? = _
      rw [List.getElem?_map, hi]
      rfl
    rw [h1]
    show (p.elements.map _)[j]? = _
    rw [List.getElem?_map, hj]
    rfl

/-- Splitting a boolean conjunction hypothesis. -/
theorem bool_and_split {a b : Bool} (h : (a && b) = true) : a = true ∧ b = true := by
  cases a <;> cases b <;> simp_all

/-- A negated boolean that is true. -/
theorem bool_not_true {b : Bool} (h : (!b) = true) : b = false := by
  cases b <;> simp_all

/-- A negated boolean that is false. -/
theorem bool_not_false {b : Bool} (h : (!b) = false) : b = true := by
  cases b <;> simp_all

/-- An element that is not safe-and-visible is skipped by the page-text
loop. -/
theorem pageStep_ineligible (tc : List (Nat × Nat)) (ch : List (Nat × (PdfElement × String)))
    (s : String × Bool) (ke : Nat × PdfElement)
    (h : (ke.2.safe && ke.2.visible) = false) : pageStep tc ch s ke = s := by
  cases ke with
  | mk k e =>
    cases hs : e.safe <;> cases hv : e.visible <;> simp_all [pageStep]

/-- The page-text loop only sees the safe-and-visible elements. -/
theorem foldl_pageStep_filter (tc : List (Nat × Nat)) (ch : List (Nat × (PdfElement × String)))
    (l : List (Nat × PdfElement)) (s : String × Bool) :
    l.foldl (pageStep tc ch) s
      = (l.filter (fun ke => ke.2.safe && ke.2.visible)).foldl (pageStep tc ch) s := by
  induction l generalizing s with
  | nil => rfl
  | cons ke rest ih =>
    by_cases h : (ke.2.safe && ke.2.visible) = true
    · simp only [List.foldl_cons, List.filter_cons, h, if_true, ih]
    · have h2 : (ke.2.safe && ke.2.visible) = false := by simpa using h
      have h3 : List.filter (fun ke => ke.2.safe && ke.2.visible) (ke :: rest)
          = List.filter (fun ke => ke.2.safe && ke.2.visible) rest := by
        simp [List.filter_cons, h2]
      rw [List.foldl_cons, pageStep_ineligible tc ch _ _ h2, h3, ih]

/-- In normal mode an eligible element contributes exactly `normalEmit`. -/
theorem pageStep_false (tc : List (Nat × Nat)) (ch : List (Nat × (PdfElement × String)))
    (t : String) (ke : Nat × PdfElement) (h : (ke.2.safe && ke.2.visible) = true) :
    pageStep tc ch (t, false) ke = (t ++ normalEmit tc ch ke, false) := by
  cases ke with
  | mk k e =>
    have hs : e.safe = true := (bool_and_split h).1
    have hv : e.visible = true := (bool_and_split h).2
    simp only [pageStep, normalEmit, hs, hv]
    rcases hl : tc.lookup k with _ | hd
    · simp [hl, String.append_assoc]
    · by_cases hh : hd = k
      · rcases ht : e.translated with _ | tr <;>
          simp [hl, hh, ht, String.append_assoc, Option.getD]
      · simp [hl, hh, String.append_empty]

/-- Normal mode consumes a whole eligible suffix into `normalEmit`
concatenation. -/
theorem foldl_pageStep_false (tc : List (Nat × Nat)) (ch : List (Nat × (PdfElement × String)))
    (l : List (Nat × PdfElement)) (t : String)
    (hall : ∀ ke ∈ l, (ke.2.safe && ke.2.visible) = true) :
    l.foldl (pageStep tc ch) (t, false) = (t ++ emitAll (normalEmit tc ch) l, false) := by
  induction l generalizing t with
  | nil => simp [emitAll, String.append_empty]
  | cons ke rest ih =>
    rw [List.foldl_cons, pageStep_false _ _ _ _ (hall ke (List.mem_cons_self _ _)),
      ih _ (fun x hx => hall x (List.mem_cons_of_mem _ hx))]
    show ((t ++ normalEmit tc ch ke) ++ emitAll (normalEmit tc ch) rest, false)
      = (t ++ (normalEmit tc ch ke ++ emitAll (normalEmit tc ch) rest), false)
    rw [String.append_assoc]

/-- A mode-keeping eligible element contributes exactly `leadingEmit`. -/
theorem pageStep_true_keep (tc : List (Nat × Nat)) (ch : List (Nat × (PdfElement × String)))
    (t : String) (ke : Nat × PdfElement) (h : (ke.2.safe && ke.2.visible) = true)
    (hkeep : keepsOmission tc ke = true) :
    pageStep tc ch (t, true) ke = (t ++ leadingEmit ke, true) := by
  cases ke with
  | mk k e =>
    have hs : e.safe = true := (bool_and_split h).1
    have hv : e.visible = true := (bool_and_split h).2
    have hbn : (e.body && (tc.lookup k).isNone) = false := by
      simp only [keepsOmission] at hkeep
      exact bool_not_true hkeep
    rcases hb : e.body with _ | _
    · simp [pageStep, leadingEmit, hs, hv, hb, String.append_assoc]
    · have hn : (tc.lookup k).isNone = false := by simpa [hb] using hbn
      simp [pageStep, leadingEmit, hs, hv, hb, hn]

/-- The mode-switching element is emitted in normal mode. -/
theorem pageStep_true_switch (tc : List (Nat × Nat)) (ch : List (Nat × (PdfElement × String)))
    (t : String) (ke : Nat × PdfElement) (h : (ke.2.safe && ke.2.visible) = true)
    (hkeep : keepsOmission tc ke = false) :
    pageStep tc ch (t, true) ke = (t ++ normalEmit tc ch ke, false) := by
  cases ke with
  | mk k e =>
    have hs : e.safe = true := (bool_and_split h).1
    have hv : e.visible = true := (bool_and_split h).2
    have hbn : (e.body && (tc.lookup k).isNone) = true := by
      simp only [keepsOmission] at hkeep
      exact bool_not_false hkeep
    have hb : e.body = true := (bool_and_split hbn).1
    have hn : (tc.lookup k).isNone = true := (bool_and_split hbn).2
    have hl : tc.lookup k = none := Option.isNone_iff_eq_none.mp hn
    simp [pageStep, normalEmit, hs, hv, hb, hl, String.append_assoc]

/-- The full mode machine over an eligible list: the leading mode-keeping
prefix is emitted with `leadingEmit`, the rest with `normalEmit`. -/
theorem foldl_pageStep_true_fst (tc : List (Nat × Nat)) (ch : List (Nat × (PdfElement × String)))
    (l : List (Nat × PdfElement)) (t : String)
    (hall : ∀ ke ∈ l, (ke.2.safe && ke.2.visible) = true) :
    (l.foldl (pageStep tc ch) (t, true)).1
      = t ++ emitAll leadingEmit (l.takeWhile (keepsOmission tc)) ++
          emitAll (normalEmit tc ch) (l.dropWhile (keepsOmission tc)) := by
  induction l generalizing t with
  | nil => simp [emitAll, String.append_empty]
  | cons ke rest ih =>
    by_cases hkeep : keepsOmission tc ke = true
    · rw [List.foldl_cons, pageStep_true_keep _ _ _ _ (hall ke (List.mem_cons_self _ _)) hkeep,
        List.takeWhile_cons_of_pos hkeep, List.dropWhile_cons_of_pos hkeep,
        ih _ (fun x hx => hall x (List.mem_cons_of_mem _ hx))]
      show (t ++ leadingEmit ke) ++ emitAll leadingEmit (rest.takeWhile (keepsOmission tc)) ++ _
        = t ++ (leadingEmit ke ++ emitAll leadingEmit (rest.takeWhile (keepsOmission tc))) ++ _
      rw [String.append_assoc t (leadingEmit ke)]
    · have hkeep' : keepsOmission tc ke = false := by simpa using hkeep
      rw [List.foldl_cons, pageStep_true_switch _ _ _ _ (hall ke (List.mem_cons_self _ _)) hkeep',
        foldl_pageStep_false _ _ _ _ (fun x hx => hall x (List.mem_cons_of_mem _ hx)),
        List.takeWhile_cons_of_neg (by simp [hkeep']), List.dropWhile_cons_of_neg (by simp [hkeep'])]
      show (t ++ normalEmit tc ch ke) ++ emitAll (normalEmit tc ch) rest
        = t ++ emitAll leadingEmit [] ++ (normalEmit tc ch ke ++ emitAll (normalEmit tc ch) rest)
      rw [show emitAll leadingEmit [] = "" from rfl, String.append_empty, String.append_assoc]

/-- C4 amended: `get_page_text` equals the claim-level rendering in which
the leading-omission mode persists while eligible elements are non-body or
have any chain entry (a head of a page-local chain included), switches at
the first body element with no chain entry, and emits `leadingEmit` /
`normalEmit` accordingly; ineligible elements are skipped in both modes. -/
theorem c4_amended_page_text (ctx : Context) (page : Nat) :
    get_page_text ctx page = pageTextAmended ctx page := by
  unfold get_page_text pageTextAmended
  rcases hp : ctx.pages[page]? with _ | p
  · simp [hp]
  · simp only [hp]
    rw [foldl_pageStep_filter]
    rw [foldl_pageStep_true_fst _ _ _ _ (fun ke hk => (List.mem_filter.mp hk).2)]
    rw [String.empty_append]

/-- C4 counterexample: in `ctxConcat` the only chain is headed on the very
page being rendered (there is no earlier page at all), yet `get_page_text`
emits the omission marker twice and never the combined chain text, so the
claimed leading-omission/normal-mode split is false as stated. -/
theorem c4_counterexample :
    get_page_text ctxConcat 0 = omissionMarker ++ omissionMarker ∧
    get_page_text ctxConcat 0 ≠ "A B\n" := by
  refine ⟨rfl, ?_⟩
  intro h
  have h2 : omissionMarker ++ omissionMarker = "A B\n" := by
    rw [← h]; rfl
  exact absurd h2 (by decide)

/-- C6 counterexample: with the duplicated key list `[1, 1]` exactly one
element of `ctxFour` has a key in the list and qualifies, yet `merge` is not
a no-op — the collected list counts one entry per key occurrence. -/
theorem c6_counterexample :
    ((ctxFour.pages.map (fun p => (p.elements.filter
        (fun ke => [1, 1].contains ke.1 && mergeEligible ke.2)).length)) = [1]) ∧
    merge fmJoin ctxFour 0 [1, 1] 1 ≠ some ctxFour := by
  refine ⟨rfl, ?_⟩
  intro h
  have h2 := congrArg
    (fun o : Option Context =>
      o.map (fun c => c.pages.map (fun p => p.elements.map (fun ke => ke.2.text)))) h
  have h3 : (some [["A", "BB", "C", "D"]] : Option (List (List String)))
      = some [["A", "B", "C", "D"]] := h2
  exact absurd h3 (by decide)

/-- A successful association-list lookup is a membership. -/
theorem mem_of_lookup {β : Type} (k : Nat) (v : β) :
    ∀ l : List (Nat × β), List.lookup k l = some v → (k, v) ∈ l := by
  intro l
  induction l with
  | nil => intro h; cases h
  | cons kv rest ih =>
    intro h
    by_cases hk : k = kv.1
    · have : List.lookup k (kv :: rest) = some kv.2 := by
        cases kv; subst hk; simp [List.lookup]
      rw [this] at h
      cases h
      cases kv
      simp_all
    · rw [show (kv :: rest) = ((kv.1, kv.2) :: rest) by cases kv; rfl,
        lookup_cons_ne _ _ _ _ hk] at h
      exact List.mem_cons_of_mem _ (ih h)

/-- Invariant of the chain scan with pairwise distinct keys: `to_chain` keys
are processed keys, every committed chain head has a distinct member mapping
to it, and the open head is a processed key. -/
theorem chainScanInv (l : List (Nat × PdfElement)) :
    ∀ (P : List Nat) (s : ChainState),
    (P ++ l.map (fun ke => ke.1)).Nodup →
    (∀ kv ∈ s.to_chain, kv.1 ∈ P) →
    (∀ hd et, (hd, et) ∈ s.chains → ∃ k, k ≠ hd ∧ s.to_chain.lookup k = some hd) →
    (∀ hk e2 t2, s.last = some (hk, e2, t2) → hk ∈ P) →
    ((∀ kv ∈ (l.foldl chainStep s).to_chain, kv.1 ∈ P ++ l.map (fun ke => ke.1)) ∧
     (∀ hd et, (hd, et) ∈ (l.foldl chainStep s).chains →
       ∃ k, k ≠ hd ∧ ((l.foldl chainStep s).to_chain).lookup k = some hd) ∧
     (∀ hk e2 t2, (l.foldl chainStep s).last = some (hk, e2, t2) →
       hk ∈ P ++ l.map (fun ke => ke.1))) := by
  induction l with
  | nil =>
    intro P s hnd h1 h2 h3
    exact ⟨fun kv hkv => by simpa using h1 kv hkv, h2,
      fun hk e2 t2 hl => by simpa using h3 hk e2 t2 hl⟩
  | cons ke rest ih =>
    rcases ke with ⟨k, e⟩
    intro P s hnd h1 h2 h3
    have hPe : P ++ ((k, e) :: rest).map (fun ke => ke.1)
        = (P ++ [k]) ++ rest.map (fun ke => ke.1) := by
      simp [List.append_assoc]
    have hnd' : ((P ++ [k]) ++ rest.map (fun ke => ke.1)).Nodup := by
      rw [← hPe]; simpa using hnd
    have hkP : k ∉ P := by
      intro hk
      have hdisj := (List.nodup_append.mp (by simpa using hnd)).2.2
      exact hdisj hk (List.mem_cons_self _ _)
    rw [hPe, List.foldl_cons]
    by_cases he : chainEligible e
    · rcases hl : s.last with _ | ⟨⟨hk0, e0, t0⟩⟩
      · by_cases hc : e.contd.isSome
        · have hstep : chainStep s (k, e) =
              { s with last := some (k, e, e.text), to_chain := (k, k) :: s.to_chain,
                       prev_body := some e } := by
            simp [chainStep, he, hl, hc]
          rw [hstep]
          refine ih (P ++ [k]) _ hnd' ?_ ?_ ?_
          · intro kv hkv
            rcases List.mem_cons.mp hkv with h | h
            · subst h; simp
            · exact List.mem_append_left _ (h1 kv h)
          · intro hd et hmem
            obtain ⟨k2, hne, hlk⟩ := h2 hd et hmem
            have hk2P : k2 ∈ P := h1 (k2, hd) (mem_of_lookup _ _ _ hlk)
            have hk2k : k2 ≠ k := fun hh => hkP (hh ▸ hk2P)
            exact ⟨k2, hne, by rw [lookup_cons_ne _ _ _ _ hk2k]; exact hlk⟩
          · intro hk2 e2 t2 hl2
            cases hl2
            simp
        · have hstep : chainStep s (k, e) = { s with prev_body := some e } := by
            simp [chainStep, he, hl, hc]
          rw [hstep]
          refine ih (P ++ [k]) _ hnd' ?_ ?_ ?_
          · exact fun kv hkv => List.mem_append_left _ (h1 kv hkv)
          · exact h2
          · intro hk2 e2 t2 hl2
            rw [show ({ s with prev_body := some e } : ChainState).last = s.last from rfl, hl]
              at hl2
            cases hl2
      · have hk0P : hk0 ∈ P := h3 hk0 e0 t0 hl
        have hk0k : k ≠ hk0 := fun hh => hkP (hh ▸ hk0P)
        have oldWit : ∀ hd et, (hd, et) ∈ s.chains →
            ∃ k2, k2 ≠ hd ∧ ((k, hk0) :: s.to_chain).lookup k2 = some hd := by
          intro hd et hmem
          obtain ⟨k2, hne, hlk⟩ := h2 hd et hmem
          have hk2P : k2 ∈ P := h1 (k2, hd) (mem_of_lookup _ _ _ hlk)
          have hk2k : k2 ≠ k := fun hh => hkP (hh ▸ hk2P)
          exact ⟨k2, hne, by rw [lookup_cons_ne _ _ _ _ hk2k]; exact hlk⟩
        by_cases hc : e.contd.isNone
        · have hstep : chainStep s (k, e) =
              { s with
                chains := (hk0, (e0, t0 ++ (match s.prev_body with
                  | some pb => if pb.contd = some 1 then " " else "\n"
                  | none => "\n") ++ e.text)) :: s.chains,
                to_chain := (k, hk0) :: s.to_chain, last := none,
                prev_body := some e } := by
            simp [chainStep, he, hl, hc]
          rw [hstep]
          refine ih (P ++ [k]) _ hnd' ?_ ?_ ?_
          · intro kv hkv
            rcases List.mem_cons.mp hkv with h | h
            · subst h; simp
            · exact List.mem_append_left _ (h1 kv h)
          · intro hd et hmem
            rcases List.mem_cons.mp hmem with h | h
            · refine ⟨k, ?_, ?_⟩
              · cases h; exact hk0k
              · cases h; simp [List.lookup]
            · exact oldWit hd et h
          · intro hk2 e2 t2 hl2
            cases hl2
        · have hstep : chainStep s (k, e) =
              { s with
                last := some (hk0, e0, t0 ++ (match s.prev_body with
                  | some pb => if pb.contd = some 1 then " " else "\n"
                  | none => "\n") ++ e.text),
                to_chain := (k, hk0) :: s.to_chain,
                prev_body := some e } := by
            simp [chainStep, he, hl, hc]
          rw [hstep]
          refine ih (P ++ [k]) _ hnd' ?_ ?_ ?_
          · intro kv hkv
            rcases List.mem_cons.mp hkv with h | h
            · subst h; simp
            · exact List.mem_append_left _ (h1 kv h)
          · intro hd et hmem
            exact oldWit hd et hmem
          · intro hk2 e2 t2 hl2
            cases hl2
            exact List.mem_append_left _ hk0P
    · have hstep : chainStep s (k, e) = s :=
        chainStep_ineligible s (k, e) (by simpa using he)
      rw [hstep]
      refine ih (P ++ [k]) _ hnd' ?_ h2 ?_
      · exact fun kv hkv => List.mem_append_left _ (h1 kv hkv)
      · exact fun hk2 e2 t2 hl2 => List.mem_append_left _ (h3 hk2 e2 t2 hl2)

/-- C9 amended: with pairwise distinct keys, every head committed into
`chains` either has a member distinct from the head mapping to it in
`to_chain`, or is the head of the chain still open at end of scan (which is
committed even when it holds a single fragment). -/
theorem c9_amended_chains_multi (ctx : Context) (hnd : (keysOf ctx).Nodup)
    (hd : Nat) (e : PdfElement) (t : String)
    (hmem : (hd, (e, t)) ∈ (build_chain_list ctx).1) :
    (∃ k, k ≠ hd ∧ ((build_chain_list ctx).2).lookup k = some hd) ∨
    (∃ e2 t2, (chainScan ctx).last = some (hd, e2, t2)) := by
  have hinv := chainScanInv (allElements ctx) [] chainInit (by simpa [keysOf] using hnd)
    (by intro kv hkv; cases hkv) (by intro h2 et hmem2; cases hmem2)
    (by intro hk e2 t2 hl; cases hl)
  rw [← chainScan_eq_foldl] at hinv
  obtain ⟨_, i2, _⟩ := hinv
  rw [build_chain_list_snd]
  have hbuild1 : (build_chain_list ctx).1 =
      (match (chainScan ctx).last with
       | some (a, b, c) => (a, (b, c)) :: (chainScan ctx).chains
       | none => (chainScan ctx).chains) := by
    unfold build_chain_list
    rcases hx : (chainScan ctx).last with _ | ⟨⟨a, b, c⟩⟩ <;> simp [hx]
  rcases hl : (chainScan ctx).last with _ | ⟨⟨hk0, e0, t0⟩⟩
  · rw [hbuild1, hl] at hmem
    exact Or.inl (i2 hd (e, t) hmem)
  · rw [hbuild1, hl] at hmem
    rcases List.mem_cons.mp hmem with h | h
    · right
      have hhd : hd = hk0 := by
        injection h with ha hb
      subst hhd
      exact ⟨e0, t0, rfl⟩
    · exact Or.inl (i2 hd (e, t) h)

/-- Witness for C9 amended: the two-element Concat/None chain of `ctxConcat`
satisfies the hypotheses; its head 0 has the distinct member 1 mapping to
it. -/
theorem c9_amended_chains_multi_witness :
    (∃ k, k ≠ 0 ∧ ((build_chain_list ctxConcat).2).lookup k = some 0) ∨
    (∃ e2 t2, (chainScan ctxConcat).last = some (0, e2, t2)) :=
  c9_amended_chains_multi ctxConcat (by decide) 0 (txtElem "A" (some 1)) "A B"
    (List.mem_singleton.mpr rfl)

/-- C9 counterexample: a single eligible element with a `Concat` marker
opens a chain that is still open at end of scan; it is committed into
`chains`, but no key other than the head maps to it in `to_chain`, so the
chains map does not contain only multi-fragment runs. -/
theorem c9_counterexample :
    (build_chain_list ctxOpen).1 = [(0, (txtElem "A" (some 1), "A"))] ∧
    (∀ k : Nat, k ≠ 0 → ((build_chain_list ctxOpen).2).lookup k = none) := by
  refine ⟨rfl, ?_⟩
  intro k hk
  show List.lookup k [(0, 0)] = none
  rw [lookup_cons_ne _ _ _ _ hk]
  rfl

/-- Witness for C1: the step characterization applied to a concrete open
chain and a concrete closing continuation. -/
theorem c1_continuation_join_rule_witness :
    (chainStep chainWitnessState (6, txtElem "B" none)).to_chain
      = (6, 5) :: chainWitnessState.to_chain :=
  (c1_continuation_join_rule.1 chainWitnessState 5 (txtElem "H" (some 1)) "H"
    (txtElem "H" (some 1)) 6 (txtElem "B" none) rfl rfl (by decide) rfl).1

/-- Witness for C2: a concrete invisible element leaves the state unchanged
and its key is absent from the rebuilt `to_chain`. -/
theorem c2_ineligible_skipped_witness :
    chainStep chainInit (3, { baseElem with visible := false }) = chainInit ∧
    ((build_chain_list ctxInvis).2).lookup 3 = none := by
  constructor
  · exact c2_ineligible_skipped.1 chainInit 3 _ (by decide)
  · refine c2_ineligible_skipped.2 ctxInvis 3 ?_
    intro e he
    have h2 : e = { baseElem with visible := false } := by
      have h3 : ((3 : Nat), e) ∈ [((3 : Nat), { baseElem with visible := false })] := he
      simpa using h3
    subst h2
    decide

/-- Witness for C5: the overlap iff at touching rectangles and the per-index
safe-flag equation at a concrete document and indices. -/
theorem c5_safe_area_overlap_witness :
    check_overlap ((0 : ℚ), (0 : ℚ), (1 : ℚ), (1 : ℚ)) (1, 1, 3, 3) = true ∧
    (((recalculate_safe_area ctxConcat).pages[0]?).bind (fun p2 => p2.elements[0]?)) =
      some (0, { txtElem "A" (some 1) with
        safe := check_overlap (txtElem "A" (some 1)).bbox
          (safe_area_rect ctxConcat.margin
            { page_number := 1, width := 100, height := 100,
              elements := [(0, txtElem "A" (some 1)), (1, txtElem "B" none)] }) }) := by
  constructor
  · exact (c5_safe_area_overlap.1 (0, 0, 1, 1) (1, 1, 3, 3)).mpr (by norm_num)
  · exact c5_safe_area_overlap.2 ctxConcat 0 0 0 (txtElem "A" (some 1)) _ rfl rfl

/-- With no further entry carrying key `k`, the per-key filter is empty. -/
theorem filter_key_nil (k : Nat) (l : List (Nat × PdfElement))
    (h : ∀ ke ∈ l, ke.1 ≠ k) :
    l.filter (fun ke => ke.1 == k && mergeEligible ke.2) = [] := by
  induction l with
  | nil => rfl
  | cons ke rest ih =>
    have hk : (ke.1 == k) = false := beq_eq_false_iff_ne.mpr (h ke (List.mem_cons_self _ _))
    simp only [List.filter_cons, hk, Bool.false_and]
    exact ih (fun x hx => h x (List.mem_cons_of_mem _ hx))

/-- With pairwise distinct keys, the per-key collection of `Pdf.merge` is
the single eligible entry found for that key, if any. -/
theorem mergeCandidates_single (k : Nat) (l : List (Nat × PdfElement))
    (hnd : (l.map (fun ke => ke.1)).Nodup) :
    (l.filter (fun ke => ke.1 == k && mergeEligible ke.2)).map (fun ke => ke.2)
      = ((l.find? (fun ke => ke.1 == k)).bind
          (fun ke => if mergeEligible ke.2 then some ke.2 else none)).toList := by
  induction l with
  | nil => rfl
  | cons ke rest ih =>
    have hnd2 : (rest.map (fun ke => ke.1)).Nodup := (List.nodup_cons.mp hnd).2
    by_cases hk : ke.1 = k
    · have hb : (ke.1 == k) = true := beq_iff_eq.mpr hk
      have hnomore : ∀ x ∈ rest, x.1 ≠ k := by
        intro x hx hxk
        have : ke.1 ∈ rest.map (fun ke => ke.1) := by
          rw [hk, ← hxk]
          exact List.mem_map_of_mem _ hx
        exact (List.nodup_cons.mp hnd).1 this
      have hfind : List.find? (fun ke => ke.1 == k) (ke :: rest) = some ke := by
        simp [List.find?_cons, hb]
      rw [hfind]
      by_cases he : mergeEligible ke.2 = true
      · simp only [List.filter_cons, hb, he, Bool.and_self, if_true,
          List.map_cons, filter_key_nil k rest hnomore]
        simp [he]
      · have he2 : mergeEligible ke.2 = false := by simpa using he
        simp only [List.filter_cons, hb, he2, Bool.and_false,
          filter_key_nil k rest hnomore]
        simp [he2]
    · have hb : (ke.1 == k) = false := beq_eq_false_iff_ne.mpr hk
      have hfind : List.find? (fun ke => ke.1 == k) (ke :: rest)
          = List.find? (fun ke => ke.1 == k) rest := by
        simp [List.find?_cons, hb]
      rw [hfind]
      simp only [List.filter_cons, hb, Bool.false_and]
      exact ih hnd2

/-- C10: when the page's keys are pairwise distinct, the list handed to the
merge factory is ordered by the position of each key inside the `keys`
argument (not by page order), and a key occurring twice contributes its
element once per occurrence: the collection is a `filterMap` over the
`keys` argument. -/
theorem c10_merge_factory_order (page : PdfPage) (key_list : List Nat)
    (hnd : (page.elements.map (fun ke => ke.1)).Nodup) :
    mergeCandidates page key_list
      = key_list.filterMap (fun k =>
          (page.elements.find? (fun ke => ke.1 == k)).bind
            (fun ke => if mergeEligible ke.2 then some ke.2 else none)) := by
  induction key_list with
  | nil => rfl
  | cons k ks ih =>
    show (page.elements.filter _).map _ ++ mergeCandidates page ks = _
    rw [mergeCandidates_single k page.elements hnd, ih, List.filterMap_cons]
    rcases hx : (page.elements.find? (fun ke => ke.1 == k)).bind
        (fun ke => if mergeEligible ke.2 then some ke.2 else none) with _ | v <;>
      simp [hx]

/-- Witness for C10: merging with keys `[3, 1]` on `ctxFour` hands the
factory the elements `D` then `B` — keys-argument order, not page order. -/
theorem c10_merge_factory_order_witness :
    mergeCandidates
      { page_number := 1, width := 100, height := 100,
        elements := [(0, txtElem "A" none), (1, txtElem "B" none),
                     (2, txtElem "C" none), (3, txtElem "D" none)] }
      [3, 1]
      = [txtElem "D" none, txtElem "B" none] := by
  rw [c10_merge_factory_order _ _ (by decide)]
  rfl

/-- A `getElem?` hit bounds the index. -/
theorem lt_of_getElem?_some {α : Type} {l : List α} {i : Nat} {a : α}
    (h : l[i]? = some a) : i < l.length := by
  by_contra hn
  rw [List.getElem?_eq_none (by omega)] at h
  cases h

/-- Indexing just past a prefix hits the next element. -/
theorem getElem?_append_cons {α : Type} (a : List α) (x : α) (r : List α) :
    (a ++ x :: r)[a.length]? = some x := by
  induction a with
  | nil => simp
  | cons y ys ih => simpa using ih

/-- Erasing just past a prefix removes the next element. -/
theorem eraseIdx_append_cons {α : Type} (a : List α) (x : α) (r : List α) :
    (a ++ x :: r).eraseIdx a.length = a ++ r := by
  induction a with
  | nil => rfl
  | cons y ys ih =>
    show ((y :: (ys ++ x :: r)) : List α).eraseIdx (ys.length + 1) = y :: (ys ++ r)
    rw [List.eraseIdx_cons_succ, ih]

/-- Inserting past a prefix inserts into the suffix. -/
theorem insertIdx_append {α : Type} (a : List α) (n : Nat) (x : α) (l : List α) :
    (a ++ l).insertIdx (a.length + n) x = a ++ l.insertIdx n x := by
  induction a with
  | nil => simp
  | cons y ys ih =>
    have harith : (y :: ys).length + n = (ys.length + n) + 1 := by
      simp [List.length_cons]; omega
    rw [harith]
    show ((y :: (ys ++ l)) : List α).insertIdx ((ys.length + n) + 1) x = _
    rw [List.insertIdx_succ_cons, ih]
    rfl

/-- The `move_element` index scan over an appended list. -/
theorem moveScanAux_append (pk mk : Nat) (l1 l2 : List (Nat × PdfElement)) :
    ∀ (i : Nat) (acc : Option Nat × Option Nat),
    moveScanAux pk mk (l1 ++ l2) i acc
      = moveScanAux pk mk l2 (i + l1.length) (moveScanAux pk mk l1 i acc) := by
  induction l1 with
  | nil => intro i acc; simp [moveScanAux]
  | cons ke rest ih =>
    intro i acc
    show moveScanAux pk mk (ke :: (rest ++ l2)) i acc = _
    rw [moveScanAux, ih]
    have harith : (i + 1) + rest.length = i + (ke :: rest).length := by
      simp [List.length_cons]; omega
    rw [harith]
    rfl

/-- Entries carrying neither key leave the scan accumulator unchanged. -/
theorem moveScanAux_no_match (pk mk : Nat) (l : List (Nat × PdfElement))
    (h : ∀ ke ∈ l, ke.1 ≠ pk ∧ ke.1 ≠ mk) :
    ∀ (i : Nat) (acc : Option Nat × Option Nat), moveScanAux pk mk l i acc = acc := by
  induction l with
  | nil => intro i acc; rfl
  | cons ke rest ih =>
    intro i acc
    have hp : (ke.1 == pk) = false :=
      beq_eq_false_iff_ne.mpr (h ke (List.mem_cons_self _ _)).1
    have hm : (ke.1 == mk) = false :=
      beq_eq_false_iff_ne.mpr (h ke (List.mem_cons_self _ _)).2
    rw [moveScanAux]
    simp only [hp, hm, Bool.false_and, if_false]
    exact ih (fun x hx => h x (List.mem_cons_of_mem _ hx)) _ _

/-- Entries never matching the pivot predicate leave the pivot index
unchanged. -/
theorem moveScanAux_fst (pk mk : Nat) (l : List (Nat × PdfElement))
    (h : ∀ ke ∈ l, ¬(ke.1 = pk ∧ ke.2.safe = true ∧ ke.2.visible = true)) :
    ∀ (i : Nat) (acc : Option Nat × Option Nat),
      (moveScanAux pk mk l i acc).1 = acc.1 := by
  induction l with
  | nil => intro i acc; rfl
  | cons ke rest ih =>
    intro i acc
    have hke := h ke (List.mem_cons_self _ _)
    have hp : (ke.1 == pk && ke.2.safe && ke.2.visible) = false := by
      by_contra hcon
      have htrue : (ke.1 == pk && ke.2.safe && ke.2.visible) = true := by
        revert hcon; cases (ke.1 == pk && ke.2.safe && ke.2.visible) <;> simp
      obtain ⟨h1, h3⟩ := bool_and_split htrue
      obtain ⟨h1a, h2a⟩ := bool_and_split h1
      exact hke ⟨beq_iff_eq.mp h1a, h2a, h3⟩
    rw [moveScanAux]
    simp only [hp, if_false]
    by_cases hm : (ke.1 == mk && ke.2.safe && ke.2.visible) = true
    · simp only [hm, if_true]
      exact ih (fun x hx => h x (List.mem_cons_of_mem _ hx)) _ _
    · have hm2 : (ke.1 == mk && ke.2.safe && ke.2.visible) = false := by simpa using hm
      simp only [hm2, if_false]
      exact ih (fun x hx => h x (List.mem_cons_of_mem _ hx)) _ _

/-- Entries never matching the moved predicate leave the moved index
unchanged. -/
theorem moveScanAux_snd (pk mk : Nat) (l : List (Nat × PdfElement))
    (h : ∀ ke ∈ l, ¬(ke.1 = mk ∧ ke.2.safe = true ∧ ke.2.visible = true)) :
    ∀ (i : Nat) (acc : Option Nat × Option Nat),
      (moveScanAux pk mk l i acc).2 = acc.2 := by
  induction l with
  | nil => intro i acc; rfl
  | cons ke rest ih =>
    intro i acc
    have hke := h ke (List.mem_cons_self _ _)
    have hm : (ke.1 == mk && ke.2.safe && ke.2.visible) = false := by
      by_contra hcon
      have htrue : (ke.1 == mk && ke.2.safe && ke.2.visible) = true := by
        revert hcon; cases (ke.1 == mk && ke.2.safe && ke.2.visible) <;> simp
      obtain ⟨h1, h3⟩ := bool_and_split htrue
      obtain ⟨h1a, h2a⟩ := bool_and_split h1
      exact hke ⟨beq_iff_eq.mp h1a, h2a, h3⟩
    rw [moveScanAux]
    simp only [hm, if_false]
    by_cases hp : (ke.1 == pk && ke.2.safe && ke.2.visible) = true
    · simp only [hp, if_true]
      exact ih (fun x hx => h x (List.mem_cons_of_mem _ hx)) _ _
    · have hp2 : (ke.1 == pk && ke.2.safe && ke.2.visible) = false := by simpa using hp
      simp only [hp2, if_false]
      exact ih (fun x hx => h x (List.mem_cons_of_mem _ hx)) _ _

/-- Distinct-key facts extracted from a two-point decomposition of a page
with pairwise distinct keys. -/
theorem nodup_keys_facts (a b c : List (Nat × PdfElement)) (k1 k2 : Nat)
    (e1 e2 : PdfElement)
    (hnd : ((a ++ (k1, e1) :: b ++ (k2, e2) :: c).map (fun ke => ke.1)).Nodup) :
    k1 ≠ k2 ∧
    (∀ ke ∈ a, ke.1 ≠ k1 ∧ ke.1 ≠ k2) ∧
    (∀ ke ∈ b, ke.1 ≠ k1 ∧ ke.1 ≠ k2) ∧
    (∀ ke ∈ c, ke.1 ≠ k1 ∧ ke.1 ≠ k2) := by
  have h0 : ((a.map (fun ke => ke.1)) ++
      (k1 :: ((b.map (fun ke => ke.1)) ++ (k2 :: (c.map (fun ke => ke.1)))))).Nodup := by
    simpa [List.map_append, List.map_cons] using hnd
  obtain ⟨hna, hrest, hdisj⟩ := List.nodup_append.mp h0
  obtain ⟨hk1notin, hrest2⟩ := List.nodup_cons.mp hrest
  obtain ⟨hnb, hk2c, hdisj2⟩ := List.nodup_append.mp hrest2
  obtain ⟨hk2notc, hnc⟩ := List.nodup_cons.mp hk2c
  refine ⟨?_, ?_, ?_, ?_⟩
  · intro h
    apply hk1notin
    rw [h]
    exact List.mem_append_right _ (List.mem_cons_self _ _)
  · intro ke hke
    have hmem : ke.1 ∈ a.map (fun ke => ke.1) := List.mem_map_of_mem _ hke
    constructor
    · intro h
      exact hdisj hmem (by rw [h]; exact List.mem_cons_self _ _)
    · intro h
      exact hdisj hmem (by
        rw [h]
        exact List.mem_cons_of_mem _ (List.mem_append_right _ (List.mem_cons_self _ _)))
  · intro ke hke
    constructor
    · intro h
      apply hk1notin
      rw [← h]
      exact List.mem_append_left _ (List.mem_map_of_mem _ hke)
    · intro h
      exact hdisj2 (List.mem_map_of_mem _ hke) (by rw [h]; exact List.mem_cons_self _ _)
  · intro ke hke
    constructor
    · intro h
      apply hk1notin
      rw [← h]
      exact List.mem_append_right _
        (List.mem_cons_of_mem _ (List.mem_map_of_mem _ hke))
    · intro h
      apply hk2notc
      rw [← h]
      exact List.mem_map_of_mem _ hke

/-- The index scan on a page decomposed around the moved element (earlier)
and the pivot (later). -/
theorem moveScan_moved_first (pk mk : Nat) (a b c : List (Nat × PdfElement))
    (em ep : PdfElement) (hne : pk ≠ mk)
    (ha : ∀ ke ∈ a, ke.1 ≠ pk ∧ ke.1 ≠ mk)
    (hb : ∀ ke ∈ b, ke.1 ≠ pk ∧ ke.1 ≠ mk)
    (hc : ∀ ke ∈ c, ke.1 ≠ pk ∧ ke.1 ≠ mk)
    (hems : em.safe = true) (hemv : em.visible = true)
    (heps : ep.safe = true) (hepv : ep.visible = true) :
    moveScan (a ++ (mk, em) :: b ++ (pk, ep) :: c) pk mk
      = (some (a.length + 1 + b.length), some a.length) := by
  have hmkpk : (mk == pk) = false := beq_eq_false_iff_ne.mpr (fun h => hne h.symm)
  have hlen : 0 + (a ++ (mk, em) :: b).length = a.length + 1 + b.length := by
    rw [List.length_append, List.length_cons]
    omega
  have hinner : moveScanAux pk mk ((mk, em) :: b) (0 + a.length) (none, none)
      = (none, some a.length) := by
    rw [moveScanAux]
    simp only [hmkpk, Bool.false_and, beq_self_eq_true, hems, hemv,
      Bool.and_self, Bool.true_and, Nat.zero_add]
    rw [moveScanAux_no_match pk mk b hb]
    simp
  unfold moveScan
  rw [moveScanAux_append, moveScanAux_append, moveScanAux_no_match pk mk a ha,
    hinner, moveScanAux]
  simp only [beq_self_eq_true, heps, hepv, Bool.and_self, Bool.true_and, if_true]
  rw [moveScanAux_no_match pk mk c hc, hlen]

/-- The index scan on a page decomposed around the pivot (earlier) and the
moved element (later). -/
theorem moveScan_pivot_first (pk mk : Nat) (a b c : List (Nat × PdfElement))
    (em ep : PdfElement) (hne : pk ≠ mk)
    (ha : ∀ ke ∈ a, ke.1 ≠ pk ∧ ke.1 ≠ mk)
    (hb : ∀ ke ∈ b, ke.1 ≠ pk ∧ ke.1 ≠ mk)
    (hc : ∀ ke ∈ c, ke.1 ≠ pk ∧ ke.1 ≠ mk)
    (hems : em.safe = true) (hemv : em.visible = true)
    (heps : ep.safe = true) (hepv : ep.visible = true) :
    moveScan (a ++ (pk, ep) :: b ++ (mk, em) :: c) pk mk
      = (some a.length, some (a.length + 1 + b.length)) := by
  have hpkmk : (pk == mk) = false := beq_eq_false_iff_ne.mpr hne
  have hmkpk : (mk == pk) = false := beq_eq_false_iff_ne.mpr (fun h => hne h.symm)
  have hlen : 0 + (a ++ (pk, ep) :: b).length = a.length + 1 + b.length := by
    rw [List.length_append, List.length_cons]
    omega
  have hinner : moveScanAux pk mk ((pk, ep) :: b) (0 + a.length) (none, none)
      = (some a.length, none) := by
    rw [moveScanAux]
    simp only [beq_self_eq_true, heps, hepv, Bool.and_self, Bool.true_and, if_true,
      Nat.zero_add]
    rw [moveScanAux_no_match pk mk b hb]
  unfold moveScan
  rw [moveScanAux_append, moveScanAux_append, moveScanAux_no_match pk mk a ha,
    hinner, moveScanAux]
  simp only [hmkpk, hpkmk, Bool.false_and, beq_self_eq_true, hems, hemv,
    Bool.and_self, Bool.true_and]
  rw [moveScanAux_no_match pk mk c hc, hlen]
  simp

/-- Evaluation of the success branch of `move_element` for `"after"`. -/
theorem move_element_eval (ctx : Context) (pk mk pi : Nat) (page : PdfPage) (P M : Nat)
    (hne : pk ≠ mk) (hp : ctx.pages[pi]? = some page)
    (hscan : moveScan page.elements pk mk = (some P, some M)) :
    move_element ctx (some pk) (some mk) pi "after"
      = (setPageElems ctx pi page
          (popInsert page.elements M ((if M < P then P - 1 else P) + 1)), some true) := by
  have hlt : pi < ctx.pages.length := lt_of_getElem?_some hp
  simp only [move_element]
  rw [if_neg (by push_neg; exact ⟨hne, by omega⟩)]
  simp only [hp, hscan]
  simp [setPageElems]

/-- Evaluation of the not-found branch of `move_element`. -/
theorem move_element_eval_notfound (ctx : Context) (pk mk pi : Nat) (page : PdfPage)
    (d : String) (hne : pk ≠ mk) (hp : ctx.pages[pi]? = some page)
    (hscan : (moveScan page.elements pk mk).1 = none ∨
             (moveScan page.elements pk mk).2 = none) :
    move_element ctx (some pk) (some mk) pi d = (ctx, some false) := by
  have hlt : pi < ctx.pages.length := lt_of_getElem?_some hp
  simp only [move_element]
  rw [if_neg (by push_neg; exact ⟨hne, by omega⟩)]
  simp only [hp]
  rcases hms : moveScan page.elements pk mk with ⟨p1, m1⟩
  rw [hms] at hscan
  rcases p1 with _ | p1
  · rcases m1 with _ | m1 <;> rfl
  · rcases m1 with _ | m1
    · rfl
    · rcases hscan with h | h <;> cases h

/-- C7: `move_element(pivot, moved, page, "after")` fails with the
not-found signal when the keys coincide, the page index is out of range, or
either key has no safe-and-visible occurrence on the page, leaving the
context unchanged; on success (distinct keys on a distinct-key page, both
eligible) the moved element is re-inserted immediately after the pivot with
every other element keeping its relative order, whichever of the two
elements came first. -/
theorem c7_move_after_semantics :
    (∀ (ctx : Context) (pk pi : Nat) (d : String),
       move_element ctx (some pk) (some pk) pi d = (ctx, none)) ∧
    (∀ (ctx : Context) (pk mk pi : Nat) (d : String),
       ctx.pages.length ≤ pi →
       move_element ctx (some pk) (some mk) pi d = (ctx, none)) ∧
    (∀ (ctx : Context) (pk mk pi : Nat) (page : PdfPage) (d : String),
       pk ≠ mk → ctx.pages[pi]? = some page →
       ((∀ ke ∈ page.elements, ¬(ke.1 = pk ∧ ke.2.safe = true ∧ ke.2.visible = true)) ∨
        (∀ ke ∈ page.elements, ¬(ke.1 = mk ∧ ke.2.safe = true ∧ ke.2.visible = true))) →
       move_element ctx (some pk) (some mk) pi d = (ctx, some false)) ∧
    (∀ (ctx : Context) (pk mk pi : Nat) (page : PdfPage)
       (a b c : List (Nat × PdfElement)) (em ep : PdfElement),
       ctx.pages[pi]? = some page →
       page.elements = a ++ (mk, em) :: b ++ (pk, ep) :: c →
       ((page.elements.map (fun ke => ke.1)).Nodup) →
       em.safe = true → em.visible = true → ep.safe = true → ep.visible = true →
       move_element ctx (some pk) (some mk) pi "after"
         = (setPageElems ctx pi page (a ++ b ++ (pk, ep) :: (mk, em) :: c), some true)) ∧
    (∀ (ctx : Context) (pk mk pi : Nat) (page : PdfPage)
       (a b c : List (Nat × PdfElement)) (em ep : PdfElement),
       ctx.pages[pi]? = some page →
       page.elements = a ++ (pk, ep) :: b ++ (mk, em) :: c →
       ((page.elements.map (fun ke => ke.1)).Nodup) →
       em.safe = true → em.visible = true → ep.safe = true → ep.visible = true →
       move_element ctx (some pk) (some mk) pi "after"
         = (setPageElems ctx pi page (a ++ (pk, ep) :: (mk, em) :: b ++ c), some true)) := by
  refine ⟨?_, ?_, ?_, ?_, ?_⟩
  · intro ctx pk pi d
    simp [move_element]
  · intro ctx pk mk pi d hle
    simp only [move_element]
    rw [if_pos (Or.inr (by omega))]
  · intro ctx pk mk pi page d hne hp hmiss
    refine move_element_eval_notfound ctx pk mk pi page d hne hp ?_
    rcases hmiss with h | h
    · exact Or.inl (moveScanAux_fst pk mk page.elements h 0 (none, none))
    · exact Or.inr (moveScanAux_snd pk mk page.elements h 0 (none, none))
  · intro ctx pk mk pi page a b c em ep hp hl hnd hems hemv heps hepv
    obtain ⟨hne, ha, hb, hc⟩ := nodup_keys_facts a b c mk pk em ep (by rw [← hl]; exact hnd)
    have hne2 : pk ≠ mk := fun h => hne h.symm
    have ha2 : ∀ ke ∈ a, ke.1 ≠ pk ∧ ke.1 ≠ mk := fun ke hke => ⟨(ha ke hke).2, (ha ke hke).1⟩
    have hb2 : ∀ ke ∈ b, ke.1 ≠ pk ∧ ke.1 ≠ mk := fun ke hke => ⟨(hb ke hke).2, (hb ke hke).1⟩
    have hc2 : ∀ ke ∈ c, ke.1 ≠ pk ∧ ke.1 ≠ mk := fun ke hke => ⟨(hc ke hke).2, (hc ke hke).1⟩
    have hscan : moveScan page.elements pk mk = (some (a.length + 1 + b.length), some a.length) := by
      rw [hl]
      exact moveScan_moved_first pk mk a b c em ep hne2 ha2 hb2 hc2 hems hemv heps hepv
    rw [move_element_eval ctx pk mk pi page _ _ hne2 hp hscan]
    have hl2 : page.elements = a ++ (mk, em) :: (b ++ (pk, ep) :: c) := by
      rw [hl, List.append_assoc]
      rfl
    have hidx : (if a.length < a.length + 1 + b.length then a.length + 1 + b.length - 1
        else a.length + 1 + b.length) + 1 = a.length + (b.length + 1) := by
      rw [if_pos (by omega)]
      omega
    have hpop : popInsert page.elements a.length (a.length + (b.length + 1))
        = a ++ (b ++ (pk, ep) :: (mk, em) :: c) := by
      rw [popInsert, hl2, getElem?_append_cons]
      show ((a ++ (mk, em) :: (b ++ (pk, ep) :: c)).eraseIdx a.length).insertIdx
        (a.length + (b.length + 1)) (mk, em) = _
      rw [eraseIdx_append_cons, insertIdx_append, insertIdx_append b 1,
        List.insertIdx_succ_cons, List.insertIdx_zero]
    rw [hidx, hpop, List.append_assoc]
  · intro ctx pk mk pi page a b c em ep hp hl hnd hems hemv heps hepv
    obtain ⟨hne, ha, hb, hc⟩ := nodup_keys_facts a b c pk mk ep em (by rw [← hl]; exact hnd)
    have hscan : moveScan page.elements pk mk = (some a.length, some (a.length + 1 + b.length)) := by
      rw [hl]
      exact moveScan_pivot_first pk mk a b c em ep hne ha hb hc hems hemv heps hepv
    rw [move_element_eval ctx pk mk pi page _ _ hne hp hscan]
    have hl2 : page.elements = (a ++ (pk, ep) :: b) ++ (mk, em) :: c := by
      rw [hl, List.append_assoc]
    have hlen2 : (a ++ (pk, ep) :: b).length = a.length + 1 + b.length := by
      rw [List.length_append, List.length_cons]
      omega
    have hidx : (if a.length + 1 + b.length < a.length then a.length - 1 else a.length) + 1
        = a.length + 1 := by
      rw [if_neg (by omega)]
    have hpop : popInsert page.elements (a.length + 1 + b.length) (a.length + 1)
        = a ++ (pk, ep) :: (mk, em) :: (b ++ c) := by
      rw [popInsert, hl2, ← hlen2, getElem?_append_cons]
      show (((a ++ (pk, ep) :: b) ++ (mk, em) :: c).eraseIdx
        (a ++ (pk, ep) :: b).length).insertIdx (a.length + 1) (mk, em) = _
      rw [eraseIdx_append_cons, List.append_assoc]
      show (a ++ ((pk, ep) :: (b ++ c))).insertIdx (a.length + 1) (mk, em) = _
      rw [insertIdx_append a 1, List.insertIdx_succ_cons, List.insertIdx_zero]
    rw [hidx, hpop]
    have hassoc : a ++ (pk, ep) :: (mk, em) :: (b ++ c)
        = a ++ (pk, ep) :: (mk, em) :: b ++ c := by
      simp [List.append_assoc]
    rw [hassoc]

/-- Witness for C7: on `ctxFour`, moving key 0 after pivot 2 succeeds and
yields the order `B C A D`. -/
theorem c7_move_after_semantics_witness :
    move_element ctxFour (some 2) (some 0) 0 "after"
      = (setPageElems ctxFour 0
          { page_number := 1, width := 100, height := 100,
            elements := [(0, txtElem "A" none), (1, txtElem "B" none),
                         (2, txtElem "C" none), (3, txtElem "D" none)] }
          ([] ++ [(1, txtElem "B" none)] ++
            (2, txtElem "C" none) :: (0, txtElem "A" none) :: [(3, txtElem "D" none)]),
         some true) :=
  (c7_move_after_semantics.2.2.2.1) ctxFour 2 0 0
    { page_number := 1, width := 100, height := 100,
      elements := [(0, txtElem "A" none), (1, txtElem "B" none),
                   (2, txtElem "C" none), (3, txtElem "D" none)] }
    [] [(1, txtElem "B" none)] [(3, txtElem "D" none)]
    (txtElem "A" none) (txtElem "C" none)
    rfl rfl (by decide) rfl rfl rfl rfl

/-- `insertIdx` as take/cons/drop, for indices inside the list. -/
theorem insertIdx_eq_take_cons_drop {α : Type} (x : α) :
    ∀ (p : Nat) (l : List α), p ≤ l.length →
      l.insertIdx p x = l.take p ++ x :: l.drop p := by
  intro p
  induction p with
  | zero => intro l _; simp
  | succ q ih =>
    intro l hp
    cases l with
    | nil => simp at hp
    | cons y ys =>
      rw [List.insertIdx_succ_cons, ih ys (by simpa using hp)]
      rfl

/-- A scan result that was already `some` stays `some`. -/
theorem mergeInsertPosAux_isSome_acc (ks : List Nat) :
    ∀ (l : List (Nat × PdfElement)) (i : Nat) (acc : Option Nat), acc.isSome →
      (mergeInsertPosAux ks l i acc).isSome := by
  intro l
  induction l with
  | nil => intro i acc h; exact h
  | cons ke rest ih =>
    intro i acc h
    rw [mergeInsertPosAux]
    by_cases hq : mergeQual ks ke = true
    · simp only [hq, if_true]
      refine ih _ _ ?_
      rcases acc with _ | m
      · rfl
      · simp only [minAcc]
        by_cases him : i < m <;> simp [him]
    · have hq2 : mergeQual ks ke = false := by simpa using hq
      simp only [hq2]
      exact ih _ _ h

/-- A qualifying entry forces the scan to return an index. -/
theorem mergeInsertPosAux_isSome (ks : List Nat) :
    ∀ (l : List (Nat × PdfElement)) (i : Nat) (acc : Option Nat) (j : Nat)
      (ke : Nat × PdfElement), l[j]? = some ke → mergeQual ks ke = true →
      (mergeInsertPosAux ks l i acc).isSome := by
  intro l
  induction l with
  | nil => intro i acc j ke hj; cases hj
  | cons ke0 rest ih =>
    intro i acc j ke hj hq
    rw [mergeInsertPosAux]
    cases j with
    | zero =>
      rw [List.getElem?_cons_zero] at hj
      cases hj
      simp only [hq, if_true]
      refine mergeInsertPosAux_isSome_acc ks rest (i + 1) _ ?_
      rcases acc with _ | m
      · rfl
      · simp only [minAcc]
        by_cases him : i < m <;> simp [him]
    | succ j2 =>
      rw [List.getElem?_cons_succ] at hj
      by_cases hq0 : mergeQual ks ke0 = true
      · simp only [hq0, if_true]
        exact ih _ _ j2 ke hj hq
      · have hq2 : mergeQual ks ke0 = false := by simpa using hq0
        simp only [hq2]
        exact ih _ _ j2 ke hj hq

/-- Where the minimum scan's answer comes from: the accumulator or a
qualifying index of the list. -/
theorem mergeInsertPosAux_mem (ks : List Nat) :
    ∀ (l : List (Nat × PdfElement)) (i : Nat) (acc : Option Nat) (p : Nat),
      mergeInsertPosAux ks l i acc = some p →
      acc = some p ∨
      ∃ j ke, l[j]? = some ke ∧ mergeQual ks ke = true ∧ p = i + j := by
  intro l
  induction l with
  | nil => intro i acc p h; exact Or.inl h
  | cons ke0 rest ih =>
    intro i acc p h
    rw [mergeInsertPosAux] at h
    by_cases hq : mergeQual ks ke0 = true
    · simp only [hq, if_true] at h
      rcases ih _ _ _ h with h2 | ⟨j, ke, hj, hqke, hp⟩
      · rcases acc with _ | m
        · simp only [minAcc] at h2
          cases h2
          exact Or.inr ⟨0, ke0, List.getElem?_cons_zero, hq, by omega⟩
        · simp only [minAcc] at h2
          by_cases him : i < m
          · rw [if_pos him] at h2
            cases h2
            exact Or.inr ⟨0, ke0, List.getElem?_cons_zero, hq, by omega⟩
          · rw [if_neg him] at h2
            exact Or.inl h2
      · exact Or.inr ⟨j + 1, ke, by rw [List.getElem?_cons_succ]; exact hj, hqke, by omega⟩
    · have hq2 : mergeQual ks ke0 = false := by simpa using hq
      simp only [hq2] at h
      rcases ih _ _ _ h with h2 | ⟨j, ke, hj, hqke, hp⟩
      · exact Or.inl h2
      · exact Or.inr ⟨j + 1, ke, by rw [List.getElem?_cons_succ]; exact hj, hqke, by omega⟩

/-- The scan's answer is a lower bound for the accumulator and every
qualifying index. -/
theorem mergeInsertPosAux_min (ks : List Nat) :
    ∀ (l : List (Nat × PdfElement)) (i : Nat) (acc : Option Nat) (p : Nat),
      mergeInsertPosAux ks l i acc = some p →
      (∀ m, acc = some m → p ≤ m) ∧
      (∀ j ke, l[j]? = some ke → mergeQual ks ke = true → p ≤ i + j) := by
  intro l
  induction l with
  | nil =>
    intro i acc p h
    constructor
    · intro m hm
      rw [hm] at h
      cases h
      omega
    · intro j ke hj
      cases hj
  | cons ke0 rest ih =>
    intro i acc p h
    rw [mergeInsertPosAux] at h
    by_cases hq : mergeQual ks ke0 = true
    · simp only [hq, if_true] at h
      obtain ⟨v, hv, hvi, hvm⟩ : ∃ v, minAcc acc i = some v ∧ v ≤ i ∧
          (∀ m, acc = some m → v ≤ m) := by
        rcases acc with _ | m
        · exact ⟨i, rfl, le_refl i, by intro m hm; cases hm⟩
        · simp only [minAcc]
          by_cases him : i < m
          · rw [if_pos him]
            refine ⟨i, rfl, le_refl i, ?_⟩
            intro m2 hm2
            cases hm2
            omega
          · rw [if_neg him]
            refine ⟨m, rfl, by omega, ?_⟩
            intro m2 hm2
            cases hm2
            exact le_refl m
      rw [hv] at h
      have hpv : p ≤ v := (ih _ _ _ h).1 v rfl
      constructor
      · intro m hm
        exact le_trans hpv (hvm m hm)
      · intro j ke hj hqke
        cases j with
        | zero => omega
        | succ j2 =>
          rw [List.getElem?_cons_succ] at hj
          have := (ih _ _ _ h).2 j2 ke hj hqke
          omega
    · have hq2 : mergeQual ks ke0 = false := by simpa using hq
      simp only [hq2] at h
      constructor
      · exact (ih _ _ _ h).1
      · intro j ke hj hqke
        cases j with
        | zero =>
          rw [List.getElem?_cons_zero] at hj
          cases hj
          rw [hqke] at hq2
          cases hq2
        | succ j2 =>
          rw [List.getElem?_cons_succ] at hj
          have := (ih _ _ _ h).2 j2 ke hj hqke
          omega

/-- Marking nothing: the staging map is the identity on non-qualifying
entries. -/
theorem map_mark_id (ks : List Nat) (l : List (Nat × PdfElement))
    (h : ∀ ke ∈ l, mergeQual ks ke = false) :
    l.map (fun ke => if mergeQual ks ke then (ke.1, { ke.2 with marked := true }) else ke)
      = l := by
  induction l with
  | nil => rfl
  | cons ke rest ih =>
    rw [List.map_cons, if_neg (by rw [h ke (List.mem_cons_self _ _)]; simp),
      ih (fun x hx => h x (List.mem_cons_of_mem _ hx))]

/-- Filtering the staged list by the `marked` flag removes exactly the
qualifying entries, when the incoming list is unmarked. -/
theorem filter_marked_map (ks : List Nat) (l : List (Nat × PdfElement))
    (h : ∀ ke ∈ l, ke.2.marked = false) :
    (l.map (fun ke => if mergeQual ks ke then (ke.1, { ke.2 with marked := true }) else ke)).filter
        (fun ke => !ke.2.marked)
      = l.filter (fun ke => !(mergeQual ks ke)) := by
  induction l with
  | nil => rfl
  | cons ke rest ih =>
    rw [List.map_cons]
    by_cases hq : mergeQual ks ke = true
    · rw [if_pos hq]
      rw [List.filter_cons, List.filter_cons]
      simp only [hq]
      simpa using ih (fun x hx => h x (List.mem_cons_of_mem _ hx))
    · have hq2 : mergeQual ks ke = false := by simpa using hq
      rw [if_neg (by rw [hq2]; simp)]
      rw [List.filter_cons, List.filter_cons]
      simp only [hq2, h ke (List.mem_cons_self _ _)]
      simp only [Bool.not_false, if_true]
      rw [ih (fun x hx => h x (List.mem_cons_of_mem _ hx))]

/-- Inserting at the length of the left part of an append lands between the
parts. -/
theorem insertIdx_at_prefix_length {α : Type} (A B : List α) (p : Nat) (x : α)
    (h : A.length = p) : (A ++ B).insertIdx p x = A ++ x :: B := by
  subst h
  have h0 : A.length = A.length + 0 := by omega
  rw [h0, insertIdx_append, List.insertIdx_zero]

/-- Marking, inserting the merged element at the minimal qualifying index
and filtering the `marked` flag equals removing the qualifying entries and
inserting at that index. -/
theorem merge_insert_filter (ks : List Nat) (l : List (Nat × PdfElement)) (p : Nat)
    (x : Nat × PdfElement)
    (hm : ∀ ke ∈ l, ke.2.marked = false)
    (hxm : x.2.marked = false)
    (hqx : ∃ ke, l[p]? = some ke ∧ mergeQual ks ke = true)
    (hmin : ∀ j ke, l[j]? = some ke → mergeQual ks ke = true → p ≤ j) :
    ((l.map (fun ke => if mergeQual ks ke then (ke.1, { ke.2 with marked := true })
        else ke)).insertIdx p x).filter (fun ke => !ke.2.marked)
      = (l.filter (fun ke => !(mergeQual ks ke))).insertIdx p x := by
  obtain ⟨kex, hkex, hqkex⟩ := hqx
  have hplen : p < l.length := lt_of_getElem?_some hkex
  have htake_noqual : ∀ ke ∈ l.take p, mergeQual ks ke = false := by
    intro ke hke
    obtain ⟨i, hi⟩ := List.getElem?_of_mem hke
    have hilen : i < (l.take p).length := lt_of_getElem?_some hi
    have hip : i < p := by
      rw [List.length_take] at hilen
      omega
    have hli : l[i]? = some ke := by
      rw [List.getElem?_take] at hi
      simpa [hip] using hi
    by_contra hqc
    have hq : mergeQual ks ke = true := by
      revert hqc
      cases mergeQual ks ke <;> simp
    have := hmin i ke hli hq
    omega
  have htake_unmarked : ∀ ke ∈ l.take p, ke.2.marked = false :=
    fun ke hke => hm ke (List.mem_of_mem_take hke)
  have hdrop_unmarked : ∀ ke ∈ l.drop p, ke.2.marked = false :=
    fun ke hke => hm ke (List.mem_of_mem_drop hke)
  have hlen_take : (l.take p).length = p := by
    rw [List.length_take]
    omega
  have hmaplen : (l.map (fun ke => if mergeQual ks ke then
      (ke.1, { ke.2 with marked := true }) else ke)).length = l.length := List.length_map _ _
  have e1 : ((l.map (fun ke => if mergeQual ks ke then (ke.1, { ke.2 with marked := true })
        else ke)).insertIdx p x)
      = (l.map (fun ke => if mergeQual ks ke then (ke.1, { ke.2 with marked := true })
          else ke)).take p ++ x :: (l.map (fun ke => if mergeQual ks ke then
          (ke.1, { ke.2 with marked := true }) else ke)).drop p :=
    insertIdx_eq_take_cons_drop x p _ (by rw [hmaplen]; omega)
  have e2 : (l.map (fun ke => if mergeQual ks ke then (ke.1, { ke.2 with marked := true })
        else ke)).take p = l.take p := by
    rw [← List.map_take, map_mark_id ks (l.take p) htake_noqual]
  have e3 : (l.map (fun ke => if mergeQual ks ke then (ke.1, { ke.2 with marked := true })
        else ke)).drop p
      = (l.drop p).map (fun ke => if mergeQual ks ke then (ke.1, { ke.2 with marked := true })
          else ke) := by
    rw [← List.map_drop]
  rw [e1, e2, e3, List.filter_append]
  have e4 : (l.take p).filter (fun ke => !ke.2.marked) = l.take p :=
    List.filter_eq_self.mpr (by
      intro ke hke
      rw [htake_unmarked ke hke]
      simp)
  have e5 : (x :: (l.drop p).map (fun ke => if mergeQual ks ke then
        (ke.1, { ke.2 with marked := true }) else ke)).filter (fun ke => !ke.2.marked)
      = x :: ((l.drop p).map (fun ke => if mergeQual ks ke then
          (ke.1, { ke.2 with marked := true }) else ke)).filter (fun ke => !ke.2.marked) := by
    rw [List.filter_cons]
    simp [hxm]
  rw [e4, e5, filter_marked_map ks (l.drop p) hdrop_unmarked]
  have e6 : l.filter (fun ke => !(mergeQual ks ke))
      = l.take p ++ (l.drop p).filter (fun ke => !(mergeQual ks ke)) := by
    conv_lhs => rw [← List.take_append_drop p l]
    rw [List.filter_append, List.filter_eq_self.mpr (by
      intro ke hke
      rw [htake_noqual ke hke]
      simp)]
  rw [e6, insertIdx_at_prefix_length _ _ _ x hlen_take]

/-- C6 amended: with an in-range page, unmarked incoming elements and an
unmarked factory result, `merge` is a no-op when the collected entry list
(one entry per occurrence of a key in `keys` matching a qualifying element)
has fewer than two entries; otherwise the insertion index exists, is a
qualifying position, is minimal among qualifying positions, and the page
becomes the original list with all qualifying entries removed and exactly
one fresh-keyed replacement inserted at that index — every other element
keeping its relative order. -/
theorem c6_merge_characterization (fm : Nat → List PdfElement → Nat → PdfElement)
    (ctx : Context) (pn : Nat) (ks : List Nat) (mode : Nat) (page : PdfPage)
    (hp : ctx.pages[pn]? = some page)
    (hm : ∀ ke ∈ page.elements, ke.2.marked = false)
    (hfm : (fm page.page_number (mergeCandidates page ks) mode).marked = false) :
    ((mergeCandidates page ks).length < 2 → merge fm ctx pn ks mode = some ctx) ∧
    (2 ≤ (mergeCandidates page ks).length → (mergeInsertPos page ks).isSome) ∧
    (∀ p, mergeInsertPos page ks = some p → 2 ≤ (mergeCandidates page ks).length →
      (merge fm ctx pn ks mode
        = some { setPageElems ctx pn page
            ((page.elements.filter (fun ke => !(mergeQual ks ke))).insertIdx p
              (ctx.index, fm page.page_number (mergeCandidates page ks) mode)) with
            index := ctx.index + 1 } ∧
       (∃ ke, page.elements[p]? = some ke ∧ mergeQual ks ke = true) ∧
       (∀ j ke, page.elements[j]? = some ke → mergeQual ks ke = true → p ≤ j))) := by
  refine ⟨?_, ?_, ?_⟩
  · intro hlen
    by_cases hks : ks.length = 0
    · simp [merge, hks]
    · simp only [merge, if_neg hks, hp]
      rw [if_pos hlen]
  · intro hlen
    obtain ⟨e, he⟩ : ∃ e, e ∈ mergeCandidates page ks :=
      List.exists_mem_of_length_pos (by omega)
    rw [mergeCandidates] at he
    obtain ⟨k, hkks, hemem⟩ := List.mem_flatMap.mp he
    obtain ⟨ke, hkef, hke2⟩ := List.mem_map.mp hemem
    have hkel : ke ∈ page.elements := List.mem_of_mem_filter hkef
    have hkeq : (ke.1 == k && mergeEligible ke.2) = true := by
      simpa using List.of_mem_filter hkef
    obtain ⟨n, hn, hgn⟩ := List.mem_iff_getElem.mp hkel
    have hj : page.elements[n]? = some ke := by
      rw [List.getElem?_eq_getElem hn, hgn]
    have hq : mergeQual ks ke = true := by
      obtain ⟨h1, h2⟩ := bool_and_split hkeq
      have hk1 : ke.1 = k := beq_iff_eq.mp h1
      have hc : ks.contains k = true := List.elem_eq_true_of_mem hkks
      rw [mergeQual, hk1, hc, h2]
      rfl
    exact mergeInsertPosAux_isSome ks page.elements 0 none n ke hj hq
  · intro p hpos hlen
    have hqx : ∃ ke, page.elements[p]? = some ke ∧ mergeQual ks ke = true := by
      rcases mergeInsertPosAux_mem ks page.elements 0 none p hpos with h0 | ⟨j, ke, hj, hqke, hpj⟩
      · cases h0
      · exact ⟨ke, by rw [show p = j from by omega]; exact hj, hqke⟩
    have hmin : ∀ j ke, page.elements[j]? = some ke → mergeQual ks ke = true → p ≤ j := by
      intro j ke hj hqke
      have := (mergeInsertPosAux_min ks page.elements 0 none p hpos).2 j ke hj hqke
      omega
    have hks : ¬(ks.length = 0) := by
      intro h0
      rw [List.length_eq_zero.mp h0] at hlen
      simp [mergeCandidates] at hlen
    refine ⟨?_, hqx, hmin⟩
    simp only [merge, if_neg hks, hp]
    rw [if_neg (by omega), hpos]
    rw [show (some p).getD 0 = p from rfl]
    rw [merge_insert_filter ks page.elements p
      (ctx.index, fm page.page_number (mergeCandidates page ks) mode) hm hfm hqx hmin]
    simp [setPageElems]

/-- Witness for C6 amended: merging keys `[3, 1]` on `ctxFour` inserts the
fresh-keyed merged element at index 1, the minimum qualifying index, and
removes the originals `B` and `D`. -/
theorem c6_merge_characterization_witness :
    merge fmJoin ctxFour 0 [3, 1] 1
      = some { setPageElems ctxFour 0
          { page_number := 1, width := 100, height := 100,
            elements := [(0, txtElem "A" none), (1, txtElem "B" none),
                         (2, txtElem "C" none), (3, txtElem "D" none)] }
          (([(0, txtElem "A" none), (1, txtElem "B" none), (2, txtElem "C" none),
             (3, txtElem "D" none)].filter (fun ke => !(mergeQual [3, 1] ke))).insertIdx 1
            (100, fmJoin 1 (mergeCandidates
              { page_number := 1, width := 100, height := 100,
                elements := [(0, txtElem "A" none), (1, txtElem "B" none),
                             (2, txtElem "C" none), (3, txtElem "D" none)] } [3, 1]) 1)) with
          index := 101 } :=
  ((c6_merge_characterization fmJoin ctxFour 0 [3, 1] 1
      { page_number := 1, width := 100, height := 100,
        elements := [(0, txtElem "A" none), (1, txtElem "B" none),
                     (2, txtElem "C" none), (3, txtElem "D" none)] }
      rfl (by decide) rfl).2.2 1 rfl (by decide)).1

/-- `keysOf` through the page structure. -/
theorem keysOf_eq_pagesKeys (ctx : Context) : keysOf ctx = pagesKeys ctx.pages := by
  rw [keysOf, allElements, List.map_flatMap]
  rfl

/-- The keys handed to split children form the contiguous fresh range. -/
theorem splitChildrenKeyed_keys (ch : List PdfElement) (start : Nat) :
    (splitChildrenKeyed ch start).map (fun ke => ke.1)
      = (List.range ch.length).map (fun j => start + j) := by
  rw [splitChildrenKeyed, List.map_map, ← List.enum_map_fst ch, List.map_map]
  rfl

/-- Membership in the fresh range. -/
theorem mem_range_map_add {start n k : Nat}
    (h : k ∈ (List.range n).map (fun j => start + j)) : start ≤ k ∧ k < start + n := by
  obtain ⟨j, hj, hk⟩ := List.mem_map.mp h
  rw [List.mem_range] at hj
  omega

/-- The fresh range is duplicate-free. -/
theorem nodup_range_map_add (start n : Nat) :
    ((List.range n).map (fun j => start + j)).Nodup :=
  (List.nodup_range n).map (fun a b h => by omega)

/-- Inserting a fresh element between duplicate-free halves stays
duplicate-free. -/
theorem nodup_insert_middle (x : Nat) (A B : List Nat)
    (h : (A ++ B).Nodup) (hx : x ∉ A ++ B) : (A ++ x :: B).Nodup := by
  obtain ⟨hA, hB, hdisj⟩ := List.nodup_append.mp h
  refine List.nodup_append.mpr ⟨hA, ?_, ?_⟩
  · refine List.nodup_cons.mpr ⟨?_, hB⟩
    intro hxB
    exact hx (List.mem_append_right _ hxB)
  · intro a haA haxB
    rcases List.mem_cons.mp haxB with h1 | h1
    · subst h1
      exact hx (List.mem_append_left _ haA)
    · exact hdisj haA h1

/-- Key facts of a successful within-page split: the counter does not
decrease, every new key is an old key or lies in the fresh range, and with
distinct bounded keys the result keeps distinct bounded keys. -/
theorem splitInElems_keys (target : Nat) :
    ∀ (l : List (Nat × PdfElement)) (idx : Nat) (l2 : List (Nat × PdfElement)) (idx2 : Nat),
    splitInElems target idx l = some (l2, idx2) →
    idx ≤ idx2 ∧
    (∀ k ∈ l2.map (fun ke => ke.1),
      k ∈ l.map (fun ke => ke.1) ∨ (idx ≤ k ∧ k < idx2)) ∧
    ((l.map (fun ke => ke.1)).Nodup → (∀ k ∈ l.map (fun ke => ke.1), k < idx) →
      (l2.map (fun ke => ke.1)).Nodup ∧ (∀ k ∈ l2.map (fun ke => ke.1), k < idx2)) := by
  intro l
  induction l with
  | nil => intro idx l2 idx2 h; cases h
  | cons ke rest ih =>
    intro idx l2 idx2 h
    rw [splitInElems] at h
    by_cases hcond : ke.1 = target ∧ splitEligible ke.2 = true
    · rw [if_pos hcond] at h
      cases h
      have hkeys : (splitChildrenKeyed ke.2.children idx ++ rest).map (fun ke => ke.1)
          = (List.range ke.2.children.length).map (fun j => idx + j)
            ++ rest.map (fun ke => ke.1) := by
        rw [List.map_append, splitChildrenKeyed_keys]
      refine ⟨by omega, ?_, ?_⟩
      · intro k hk
        rw [hkeys] at hk
        rcases List.mem_append.mp hk with h1 | h1
        · exact Or.inr (by have := mem_range_map_add h1; omega)
        · exact Or.inl (by rw [List.map_cons]; exact List.mem_cons_of_mem _ h1)
      · intro hnd hb
        have hbrest : ∀ k ∈ rest.map (fun ke => ke.1), k < idx := by
          intro k hk
          exact hb k (by rw [List.map_cons]; exact List.mem_cons_of_mem _ hk)
        rw [hkeys]
        constructor
        · refine List.nodup_append.mpr ⟨nodup_range_map_add idx _, ?_, ?_⟩
          · rw [List.map_cons] at hnd
            exact (List.nodup_cons.mp hnd).2
          · intro a ha harest
            have h1 := mem_range_map_add ha
            have h2 := hbrest a harest
            omega
        · intro k hk
          rcases List.mem_append.mp hk with h1 | h1
          · have := mem_range_map_add h1; omega
          · have := hbrest k h1; omega
    · rw [if_neg hcond] at h
      rcases hrec : splitInElems target idx rest with _ | ⟨p1, p2⟩
      · rw [hrec] at h; cases h
      · rw [hrec] at h
        cases h
        obtain ⟨hle, hsub, hnd⟩ := ih idx p1 p2 hrec
        refine ⟨hle, ?_, ?_⟩
        · intro k hk
          rw [List.map_cons] at hk
          rcases List.mem_cons.mp hk with h1 | h1
          · exact Or.inl (by rw [List.map_cons, h1]; exact List.mem_cons_self _ _)
          · rcases hsub k h1 with h2 | h2
            · exact Or.inl (by rw [List.map_cons]; exact List.mem_cons_of_mem _ h2)
            · exact Or.inr h2
        · intro hnd0 hb
          rw [List.map_cons] at hnd0 hb ⊢
          obtain ⟨hke, hndrest⟩ := List.nodup_cons.mp hnd0
          have hbrest : ∀ k ∈ rest.map (fun ke => ke.1), k < idx :=
            fun k hk => hb k (List.mem_cons_of_mem _ hk)
          have hbke : ke.1 < idx := hb ke.1 (List.mem_cons_self _ _)
          obtain ⟨hndp1, hbp1⟩ := hnd hndrest hbrest
          constructor
          · refine List.nodup_cons.mpr ⟨?_, hndp1⟩
            intro hmem
            rcases hsub ke.1 hmem with h2 | h2
            · exact hke h2
            · omega
          · intro k hk
            rcases List.mem_cons.mp hk with h1 | h1
            · omega
            · exact hbp1 k h1

/-- A `getElem?` hit is a member. -/
theorem mem_of_getElem?_some {α : Type} {l : List α} {i : Nat} {a : α}
    (h : l[i]? = some a) : a ∈ l := by
  have hi : i < l.length := lt_of_getElem?_some h
  rw [List.getElem?_eq_getElem hi] at h
  cases h
  exact l.getElem_mem hi

/-- Key facts of the full page scan of `split_element`: the counter does not
decrease, every new key is an old key or fresh, and distinct bounded keys
stay distinct and bounded. -/
theorem splitInPages_keys (target : Nat) :
    ∀ (pages : List PdfPage) (idx : Nat),
    idx ≤ (splitInPages target pages idx).2 ∧
    (∀ k ∈ pagesKeys (splitInPages target pages idx).1,
      k ∈ pagesKeys pages ∨ (idx ≤ k ∧ k < (splitInPages target pages idx).2)) ∧
    ((pagesKeys pages).Nodup → (∀ k ∈ pagesKeys pages, k < idx) →
      (pagesKeys (splitInPages target pages idx).1).Nodup ∧
      (∀ k ∈ pagesKeys (splitInPages target pages idx).1,
        k < (splitInPages target pages idx).2)) := by
  intro pages
  induction pages with
  | nil =>
    intro idx
    refine ⟨le_refl idx, ?_, ?_⟩
    · intro k hk
      cases hk
    · intro _ _
      refine ⟨List.nodup_nil, ?_⟩
      intro k hk
      cases hk
  | cons page rest ih =>
    intro idx
    rw [splitInPages]
    rcases hsp : splitInElems target idx page.elements with _ | ⟨elems, idx2⟩
    · simp only []
      obtain ⟨hle, hsub, hcond⟩ := ih idx
      refine ⟨hle, ?_, ?_⟩
      · intro k hk
        rcases List.mem_append.mp hk with h1 | h1
        · exact Or.inl (List.mem_append_left _ h1)
        · rcases hsub k h1 with h2 | h2
          · exact Or.inl (List.mem_append_right _ h2)
          · exact Or.inr h2
      · intro hnd hb
        obtain ⟨hndp, hndr, hdisj⟩ := List.nodup_append.mp hnd
        have hbp : ∀ k ∈ pageKeys page, k < idx :=
          fun k hk => hb k (List.mem_append_left _ hk)
        have hbr : ∀ k ∈ pagesKeys rest, k < idx :=
          fun k hk => hb k (List.mem_append_right _ hk)
        obtain ⟨hndr2, hbr2⟩ := hcond hndr hbr
        constructor
        · refine List.nodup_append.mpr ⟨hndp, hndr2, ?_⟩
          intro a hap har2
          rcases hsub a har2 with h2 | h2
          · exact hdisj hap h2
          · have := hbp a hap
            omega
        · intro k hk
          rcases List.mem_append.mp hk with h1 | h1
          · have := hbp k h1; omega
          · exact hbr2 k h1
    · simp only []
      obtain ⟨hle1, hsub1, hcond1⟩ := splitInElems_keys target page.elements idx elems idx2 hsp
      obtain ⟨hle2, hsub2, hcond2⟩ := ih idx2
      have hpk : pageKeys { page with elements := elems } = elems.map (fun ke => ke.1) := rfl
      refine ⟨by omega, ?_, ?_⟩
      · intro k hk
        rcases List.mem_append.mp hk with h1 | h1
        · rw [hpk] at h1
          rcases hsub1 k h1 with h2 | h2
          · exact Or.inl (List.mem_append_left _ h2)
          · exact Or.inr (by omega)
        · rcases hsub2 k h1 with h2 | h2
          · exact Or.inl (List.mem_append_right _ h2)
          · exact Or.inr (by omega)
      · intro hnd hb
        obtain ⟨hndp, hndr, hdisj⟩ := List.nodup_append.mp hnd
        have hbp : ∀ k ∈ pageKeys page, k < idx :=
          fun k hk => hb k (List.mem_append_left _ hk)
        have hbr : ∀ k ∈ pagesKeys rest, k < idx :=
          fun k hk => hb k (List.mem_append_right _ hk)
        obtain ⟨hndp2, hbp2⟩ := hcond1 hndp hbp
        obtain ⟨hndr2, hbr2⟩ := hcond2 hndr (fun k hk => by have := hbr k hk; omega)
        constructor
        · refine List.nodup_append.mpr ⟨by rw [hpk]; exact hndp2, hndr2, ?_⟩
          intro a hap har2
          rw [hpk] at hap
          rcases hsub1 a hap with h2 | h2
          · rcases hsub2 a har2 with h3 | h3
            · exact hdisj h2 h3
            · have := hbp a h2
              omega
          · rcases hsub2 a har2 with h3 | h3
            · have := hbr a h3
              omega
            · omega
        · intro k hk
          rcases List.mem_append.mp hk with h1 | h1
          · rw [hpk] at h1
            have := hbp2 k h1
            omega
          · exact hbr2 k h1

/-- `split_element` preserves distinct bounded keys, never decreases the
counter, and only adds keys at or above the old counter. -/
theorem split_element_keys (ctx : Context) (target : Nat)
    (h1 : (keysOf ctx).Nodup) (h2 : ∀ k ∈ keysOf ctx, k < ctx.index) :
    (keysOf (split_element ctx target)).Nodup ∧
    (∀ k ∈ keysOf (split_element ctx target), k < (split_element ctx target).index) ∧
    ctx.index ≤ (split_element ctx target).index ∧
    (∀ k ∈ keysOf (split_element ctx target), k ∈ keysOf ctx ∨ ctx.index ≤ k) := by
  rw [keysOf_eq_pagesKeys] at h1 h2
  obtain ⟨hle, hsub, hcond⟩ := splitInPages_keys target ctx.pages ctx.index
  obtain ⟨hnd2, hb2⟩ := hcond h1 h2
  have hpages : (split_element ctx target).pages = (splitInPages target ctx.pages ctx.index).1 := rfl
  have hidx : (split_element ctx target).index = (splitInPages target ctx.pages ctx.index).2 := rfl
  rw [keysOf_eq_pagesKeys, hpages, hidx, keysOf_eq_pagesKeys]
  exact ⟨hnd2, hb2, hle, fun k hk => by
    rcases hsub k hk with h | h
    · exact Or.inl h
    · exact Or.inr h.1⟩

/-- Decomposition of a page list around an indexed page, before and after a
`set`. -/
theorem pagesKeys_set_decomp :
    ∀ (pages : List PdfPage) (pn : Nat) (page page2 : PdfPage),
    pages[pn]? = some page →
    pagesKeys pages
      = pagesKeys (pages.take pn) ++ (pageKeys page ++ pagesKeys (pages.drop (pn + 1))) ∧
    pagesKeys (pages.set pn page2)
      = pagesKeys (pages.take pn) ++ (pageKeys page2 ++ pagesKeys (pages.drop (pn + 1))) := by
  intro pages
  induction pages with
  | nil => intro pn page page2 h; cases h
  | cons p rest ih =>
    intro pn page page2 h
    cases pn with
    | zero =>
      rw [List.getElem?_cons_zero] at h
      cases h
      constructor
      · rfl
      · rfl
    | succ pn2 =>
      rw [List.getElem?_cons_succ] at h
      obtain ⟨e1, e2⟩ := ih pn2 page page2 h
      constructor
      · show pageKeys p ++ pagesKeys rest = (pageKeys p ++ pagesKeys (rest.take pn2)) ++ _
        rw [e1, List.append_assoc, List.drop_succ_cons]
      · show pageKeys p ++ pagesKeys (rest.set pn2 page2)
          = (pageKeys p ++ pagesKeys (rest.take pn2)) ++ _
        rw [e2, List.append_assoc, List.drop_succ_cons]

/-- Replacing the middle keys by a duplicate-free list drawn from the old
middle keys and the fresh counter value preserves distinctness. -/
theorem nodup_set_middle (K1 kp K2 kp2 : List Nat) (idx : Nat)
    (hnd : (K1 ++ (kp ++ K2)).Nodup)
    (hb : ∀ k ∈ K1 ++ (kp ++ K2), k < idx)
    (hnd2 : kp2.Nodup)
    (hsub : ∀ k ∈ kp2, k ∈ kp ∨ k = idx) :
    (K1 ++ (kp2 ++ K2)).Nodup ∧
    (∀ k ∈ K1 ++ (kp2 ++ K2), k < idx + 1) ∧
    (∀ k ∈ K1 ++ (kp2 ++ K2), k ∈ K1 ++ (kp ++ K2) ∨ idx ≤ k) := by
  obtain ⟨hnd1, hndmid, hdisj1⟩ := List.nodup_append.mp hnd
  obtain ⟨hndkp, hndK2, hdisj2⟩ := List.nodup_append.mp hndmid
  have hb1 : ∀ k ∈ K1, k < idx := fun k hk => hb k (List.mem_append_left _ hk)
  have hbp : ∀ k ∈ kp, k < idx :=
    fun k hk => hb k (List.mem_append_right _ (List.mem_append_left _ hk))
  have hb2 : ∀ k ∈ K2, k < idx :=
    fun k hk => hb k (List.mem_append_right _ (List.mem_append_right _ hk))
  refine ⟨?_, ?_, ?_⟩
  · refine List.nodup_append.mpr ⟨hnd1, List.nodup_append.mpr ⟨hnd2, hndK2, ?_⟩, ?_⟩
    · intro a ha2 haK2
      rcases hsub a ha2 with h | h
      · exact hdisj2 h haK2
      · have := hb2 a haK2
        omega
    · intro a ha1 hamid
      rcases List.mem_append.mp hamid with h | h
      · rcases hsub a h with h3 | h3
        · exact hdisj1 ha1 (List.mem_append_left _ h3)
        · have := hb1 a ha1
          omega
      · exact hdisj1 ha1 (List.mem_append_right _ h)
  · intro k hk
    rcases List.mem_append.mp hk with h | h
    · have := hb1 k h; omega
    · rcases List.mem_append.mp h with h | h
      · rcases hsub k h with h3 | h3
        · have := hbp k h3; omega
        · omega
      · have := hb2 k h; omega
  · intro k hk
    rcases List.mem_append.mp hk with h | h
    · exact Or.inl (List.mem_append_left _ h)
    · rcases List.mem_append.mp h with h | h
      · rcases hsub k h with h3 | h3
        · exact Or.inl (List.mem_append_right _ (List.mem_append_left _ h3))
        · exact Or.inr (by omega)
      · exact Or.inl (List.mem_append_right _ (List.mem_append_right _ h))

/-- The merge staging map does not change keys. -/
theorem map_fst_mark (ks : List Nat) (l : List (Nat × PdfElement)) :
    (l.map (fun ke => if mergeQual ks ke then (ke.1, { ke.2 with marked := true })
        else ke)).map (fun ke => ke.1) = l.map (fun ke => ke.1) := by
  rw [List.map_map]
  congr 1
  funext ke
  by_cases hq : mergeQual ks ke = true
  · simp [hq]
  · have hq2 : mergeQual ks ke = false := by simpa using hq
    simp [hq2]

/-- The keys of the merged page: duplicate-free and drawn from the old page
keys plus the fresh counter value. -/
theorem merge_new_elements_keys (ks : List Nat) (l : List (Nat × PdfElement))
    (p : Nat) (x : Nat × PdfElement)
    (hp : p ≤ l.length)
    (hnd : (l.map (fun ke => ke.1)).Nodup)
    (hxnotin : x.1 ∉ l.map (fun ke => ke.1)) :
    ((((l.map (fun ke => if mergeQual ks ke then (ke.1, { ke.2 with marked := true })
        else ke)).insertIdx p x).filter (fun ke => !ke.2.marked)).map (fun ke => ke.1)).Nodup ∧
    (∀ k ∈ (((l.map (fun ke => if mergeQual ks ke then (ke.1, { ke.2 with marked := true })
        else ke)).insertIdx p x).filter (fun ke => !ke.2.marked)).map (fun ke => ke.1),
      k ∈ l.map (fun ke => ke.1) ∨ k = x.1) := by
  have hmaplen : (l.map (fun ke => if mergeQual ks ke then
      (ke.1, { ke.2 with marked := true }) else ke)).length = l.length := List.length_map _ _
  have hins := insertIdx_eq_take_cons_drop x p
    (l.map (fun ke => if mergeQual ks ke then (ke.1, { ke.2 with marked := true }) else ke))
    (by omega)
  have hsubl : ((((l.map (fun ke => if mergeQual ks ke then
        (ke.1, { ke.2 with marked := true }) else ke)).insertIdx p x).filter
        (fun ke => !ke.2.marked)).map (fun ke => ke.1)).Sublist
      (((l.map (fun ke => if mergeQual ks ke then (ke.1, { ke.2 with marked := true })
        else ke)).insertIdx p x).map (fun ke => ke.1)) :=
    (List.filter_sublist _).map _
  have hkeys : (((l.map (fun ke => if mergeQual ks ke then
        (ke.1, { ke.2 with marked := true }) else ke)).insertIdx p x).map (fun ke => ke.1))
      = (l.map (fun ke => ke.1)).take p ++ x.1 :: (l.map (fun ke => ke.1)).drop p := by
    rw [hins, List.map_append, List.map_cons, ← List.map_take, ← List.map_drop,
      ← List.map_take, ← List.map_drop, map_fst_mark, map_fst_mark]
  have hnd3 : (((l.map (fun ke => if mergeQual ks ke then
        (ke.1, { ke.2 with marked := true }) else ke)).insertIdx p x).map
        (fun ke => ke.1)).Nodup := by
    rw [hkeys]
    refine nodup_insert_middle _ _ _ ?_ ?_
    · rw [List.take_append_drop]
      exact hnd
    · rw [List.take_append_drop]
      exact hxnotin
  constructor
  · exact hnd3.sublist hsubl
  · intro k hk
    have hk2 := hsubl.subset hk
    rw [hkeys] at hk2
    rcases List.mem_append.mp hk2 with h | h
    · exact Or.inl (List.mem_of_mem_take h)
    · rcases List.mem_cons.mp h with h | h
      · exact Or.inr h
      · exact Or.inl (List.mem_of_mem_drop h)

/-- A nonempty collected list yields a qualifying indexed entry. -/
theorem exists_qual_of_candidates (page : PdfPage) (ks : List Nat)
    (hlen : 1 ≤ (mergeCandidates page ks).length) :
    ∃ (n : Nat) (ke : Nat × PdfElement),
      page.elements[n]? = some ke ∧ mergeQual ks ke = true := by
  obtain ⟨e, he⟩ : ∃ e, e ∈ mergeCandidates page ks :=
    List.exists_mem_of_length_pos (by omega)
  rw [mergeCandidates] at he
  obtain ⟨k, hkks, hemem⟩ := List.mem_flatMap.mp he
  obtain ⟨ke, hkef, hke2⟩ := List.mem_map.mp hemem
  have hkel : ke ∈ page.elements := List.mem_of_mem_filter hkef
  have hkeq : (ke.1 == k && mergeEligible ke.2) = true := by
    simpa using List.of_mem_filter hkef
  obtain ⟨n, hn, hgn⟩ := List.mem_iff_getElem.mp hkel
  have hj : page.elements[n]? = some ke := by
    rw [List.getElem?_eq_getElem hn, hgn]
  refine ⟨n, ke, hj, ?_⟩
  obtain ⟨h1, h2⟩ := bool_and_split hkeq
  have hk1 : ke.1 = k := beq_iff_eq.mp h1
  have hc : ks.contains k = true := List.elem_eq_true_of_mem hkks
  rw [mergeQual, hk1, hc, h2]
  rfl

/-- One editing operation preserves distinct bounded keys, never decreases
the counter, and only adds keys at or above the old counter. -/
theorem applyOp_keys (fm : Nat → List PdfElement → Nat → PdfElement)
    (ctx : Context) (op : EditOp)
    (h1 : (keysOf ctx).Nodup) (h2 : ∀ k ∈ keysOf ctx, k < ctx.index) :
    (keysOf (applyOp fm ctx op)).Nodup ∧
    (∀ k ∈ keysOf (applyOp fm ctx op), k < (applyOp fm ctx op).index) ∧
    ctx.index ≤ (applyOp fm ctx op).index ∧
    (∀ k ∈ keysOf (applyOp fm ctx op), k ∈ keysOf ctx ∨ ctx.index ≤ k) := by
  rcases op with k | ⟨pn, ks, mode⟩
  · exact split_element_keys ctx k h1 h2
  · rw [show applyOp fm ctx (EditOp.merge pn ks mode)
      = (merge fm ctx pn ks mode).getD ctx from rfl]
    by_cases hks : ks.length = 0
    · have hres : merge fm ctx pn ks mode = some ctx := by simp [merge, hks]
      rw [hres]
      exact ⟨h1, h2, le_refl _, fun k hk => Or.inl hk⟩
    · rcases hpq : ctx.pages[pn]? with _ | page
      · have hres : merge fm ctx pn ks mode = none := by
          simp only [merge, if_neg hks, hpq]
        rw [hres]
        exact ⟨h1, h2, le_refl _, fun k hk => Or.inl hk⟩
      · by_cases hlen : (mergeCandidates page ks).length < 2
        · have hres : merge fm ctx pn ks mode = some ctx := by
            simp only [merge, if_neg hks, hpq]
            rw [if_pos hlen]
          rw [hres]
          exact ⟨h1, h2, le_refl _, fun k hk => Or.inl hk⟩
        · obtain ⟨n, ke, hn, hq⟩ := exists_qual_of_candidates page ks (by omega)
          obtain ⟨p, hpos⟩ := Option.isSome_iff_exists.mp
            (mergeInsertPosAux_isSome ks page.elements 0 none n ke hn hq)
          have hpos2 : mergeInsertPos page ks = some p := hpos
          have hplen : p < page.elements.length := by
            rcases mergeInsertPosAux_mem ks page.elements 0 none p hpos with
              h0 | ⟨j, ke2, hj, _, hpj⟩
            · cases h0
            · have := lt_of_getElem?_some hj
              omega
          set x := (ctx.index, fm page.page_number (mergeCandidates page ks) mode) with hxdef
          set newE := ((page.elements.map (fun ke => if mergeQual ks ke then
              (ke.1, { ke.2 with marked := true }) else ke)).insertIdx p x).filter
              (fun ke => !ke.2.marked) with hnewEdef
          set page2 := { page with elements := newE } with hpage2def
          set ctx2 := { setPageElems ctx pn page newE with index := ctx.index + 1 } with hctx2def
          have hres : merge fm ctx pn ks mode = some ctx2 := by
            simp only [merge, if_neg hks, hpq]
            rw [if_neg (by omega), hpos2]
            simp [hctx2def, setPageElems, hnewEdef]
          rw [hres, Option.getD_some]
          obtain ⟨e1, e2⟩ := pagesKeys_set_decomp ctx.pages pn page page2 hpq
          have h1d : (pagesKeys (ctx.pages.take pn) ++ (pageKeys page ++
              pagesKeys (ctx.pages.drop (pn + 1)))).Nodup := by
            rw [← e1, ← keysOf_eq_pagesKeys]
            exact h1
          have h2d : ∀ k ∈ pagesKeys (ctx.pages.take pn) ++ (pageKeys page ++
              pagesKeys (ctx.pages.drop (pn + 1))), k < ctx.index := by
            rw [← e1, ← keysOf_eq_pagesKeys]
            exact h2
          have hndkp : (pageKeys page).Nodup :=
            (List.nodup_append.mp (List.nodup_append.mp h1d).2.1).1
          have hidxnot : ctx.index ∉ pageKeys page := by
            intro hmem
            have := h2d ctx.index
              (List.mem_append_right _ (List.mem_append_left _ hmem))
            omega
          obtain ⟨hndnew, hsubnew⟩ := merge_new_elements_keys ks page.elements p x
            (by omega) hndkp hidxnot
          have hpk2 : pageKeys page2 = newE.map (fun ke => ke.1) := rfl
          obtain ⟨hc1, hc2, hc3⟩ := nodup_set_middle
            (pagesKeys (ctx.pages.take pn)) (pageKeys page)
            (pagesKeys (ctx.pages.drop (pn + 1)))
            (newE.map (fun ke => ke.1))
            ctx.index h1d h2d hndnew (by
              intro k2 hk2
              rcases hsubnew k2 hk2 with h | h
              · exact Or.inl h
              · exact Or.inr h)
          have hkeyseq : keysOf ctx2
              = pagesKeys (ctx.pages.take pn) ++
                ((newE.map (fun ke => ke.1)) ++ pagesKeys (ctx.pages.drop (pn + 1))) := by
            rw [keysOf_eq_pagesKeys]
            show pagesKeys (ctx.pages.set pn page2) = _
            rw [e2, hpk2]
          have hctx2idx : ctx2.index = ctx.index + 1 := rfl
          refine ⟨?_, ?_, ?_, ?_⟩
          · rw [hkeyseq]
            exact hc1
          · intro k2 hk2
            rw [hkeyseq] at hk2
            rw [hctx2idx]
            exact hc2 k2 hk2
          · rw [hctx2idx]
            omega
          · intro k2 hk2
            rw [hkeyseq] at hk2
            rcases hc3 k2 hk2 with h | h
            · exact Or.inl (by rw [keysOf_eq_pagesKeys, e1]; exact h)
            · exact Or.inr h

/-- C8: from pairwise distinct keys all below the counter, any sequence of
split and merge operations keeps all keys pairwise distinct and bounded by
the (non-decreasing) counter, and a key absent from the starting state but
below its counter — in particular a previously destroyed key — never
reappears; every new key is taken at or above the starting counter. -/
theorem c8_key_uniqueness (fm : Nat → List PdfElement → Nat → PdfElement)
    (ops : List EditOp) :
    ∀ (ctx : Context), (keysOf ctx).Nodup → (∀ k ∈ keysOf ctx, k < ctx.index) →
    ((keysOf (ops.foldl (applyOp fm) ctx)).Nodup ∧
     (∀ k ∈ keysOf (ops.foldl (applyOp fm) ctx), k < (ops.foldl (applyOp fm) ctx).index) ∧
     ctx.index ≤ (ops.foldl (applyOp fm) ctx).index ∧
     (∀ k, k ∉ keysOf ctx → k < ctx.index → k ∉ keysOf (ops.foldl (applyOp fm) ctx))) := by
  induction ops with
  | nil =>
    intro ctx h1 h2
    exact ⟨h1, h2, le_refl _, fun k hk _ => hk⟩
  | cons op rest ih =>
    intro ctx h1 h2
    obtain ⟨i1, i2, i3, i4⟩ := applyOp_keys fm ctx op h1 h2
    obtain ⟨j1, j2, j3, j4⟩ := ih (applyOp fm ctx op) i1 i2
    rw [List.foldl_cons]
    refine ⟨j1, j2, by omega, ?_⟩
    intro k hk hklt
    refine j4 k ?_ (by omega)
    intro hk1
    rcases i4 k hk1 with h | h
    · exact hk h
    · omega

/-- Witness for C8: a merge on `ctxFour` keeps the keys distinct and does
not decrease the counter. -/
theorem c8_key_uniqueness_witness :
    (keysOf ([EditOp.merge 0 [0, 1] 1].foldl (applyOp fmJoin) ctxFour)).Nodup ∧
    ctxFour.index ≤ ([EditOp.merge 0 [0, 1] 1].foldl (applyOp fmJoin) ctxFour).index :=
  ⟨(c8_key_uniqueness fmJoin [EditOp.merge 0 [0, 1] 1] ctxFour (by decide) (by decide)).1,
   (c8_key_uniqueness fmJoin [EditOp.merge 0 [0, 1] 1] ctxFour (by decide) (by decide)).2.2.1⟩

end P2M
